import Mathlib

/-!
# Verification of the history-index middleware

Shallow embedding of the history-index subsystem of the ledger middleware:
the order-preserving varint codec, the key/index encoder
(`core/ledger/kvledger/history/kv_encoding.go`), the query-executor scanner
state machines (`src/unnamed/part_002` variant, which is the variant coherent
with `kv_encoding.go`, and the `query_executer.go` variant where a claim is
specifically about it), and the bounded LRU caches
(`common/ledger/blkstorage/tx_cache.go`, `src/unnamed/part_000`,
`src/unnamed/part_001`).

Go byte strings are modelled as `List Nat`, Go `uint64` as `Nat` with explicit
`< 2 ^ 64` bounds where the value range matters, fallible operations as
`Option`/`Except`, and Go panics as a distinct `fault` outcome of a scanner
step.
-/

namespace HlfIndex

/-- Byte strings (Go `[]byte` / `string`): lists of byte values. -/
abbrev Bytes := List Nat

/-! ## Order-preserving varint codec

Modelled from the spec: the codec `EncodeOrderPreservingVarUint64` /
`DecodeOrderPreservingVarUint64` lives in `common/ledger/util`, which is
imported by `kv_encoding.go` but is not among the provided source files.
Per the spec (§4.1, §3, glossary) it is an order-preserving encoding of
unsigned 64-bit integers: a one-byte length followed by the minimal
big-endian representation of the number; decoding a truncated or malformed
buffer fails. -/

/-- Little-endian base-256 digits of `n`, least significant first, no
trailing zero digits (`[]` for `0`). The first argument is recursion fuel;
`n` itself always suffices since `n / 256 < n` for `n > 0`. -/
def leBytesAux : Nat → Nat → List Nat
  | 0, _ => []
  | f + 1, n => if n = 0 then [] else n % 256 :: leBytesAux f (n / 256)
-- fuel note: `n / 256 < n` for `n > 0`, so fuel `n` suffices; sufficiency is
-- proved in `leBytesAux_eq`.

/-- Little-endian base-256 digits of `n` (no trailing zeros). -/
def leBytes (n : Nat) : List Nat := leBytesAux n n

/-- Value of big-endian base-256 digits. -/
def beVal (bs : List Nat) : Nat := bs.foldl (fun acc b => acc * 256 + b) 0

/-- Modelled from the spec: `util.EncodeOrderPreservingVarUint64` — a size
byte (number of significant big-endian bytes) followed by those bytes. -/
def encodeOrderPreservingVarUint64 (n : Nat) : Bytes :=
  (leBytes n).length :: (leBytes n).reverse

/-- Modelled from the spec: `util.DecodeOrderPreservingVarUint64` — reads the
size byte, then that many big-endian bytes; returns the decoded value and the
number of bytes consumed, or `none` on a malformed/truncated buffer (empty
input, a size byte that is itself a multi-byte varint, size above 8, or fewer
remaining bytes than the stated size). -/
def decodeOrderPreservingVarUint64 (bs : Bytes) : Option (Nat × Nat) :=
  match bs with
  | [] => none
  | s :: rest =>
    if 128 ≤ s then none
    else if 8 < s then none
    else if rest.length < s then none
    else some (beVal (rest.take s), s + 1)

/-! ### Codec round-trip lemmas -/

theorem leBytesAux_eq (n : Nat) : ∀ f, n ≤ f → leBytesAux f n = leBytes n := by
  induction n using Nat.strong_induction_on with
  | _ n ih =>
    intro f hf
    by_cases hn : n = 0
    · subst hn
      cases f <;> simp [leBytes, leBytesAux]
    · obtain ⟨m, rfl⟩ : ∃ m, n = m + 1 := ⟨n - 1, by omega⟩
      obtain ⟨f', rfl⟩ : ∃ g, f = g + 1 := ⟨f - 1, by omega⟩
      have hlt : (m + 1) / 256 < m + 1 := Nat.div_lt_self (by omega) (by omega)
      have e1 : leBytesAux (f' + 1) (m + 1)
          = (m + 1) % 256 :: leBytesAux f' ((m + 1) / 256) := by
        simp [leBytesAux]
      have e2 : leBytes (m + 1)
          = (m + 1) % 256 :: leBytesAux m ((m + 1) / 256) := by
        simp [leBytes, leBytesAux]
      rw [e1, e2, ih ((m + 1) / 256) hlt f' (by omega),
        ih ((m + 1) / 256) hlt m (by omega)]

theorem leBytes_unfold (n : Nat) :
    leBytes n = if n = 0 then [] else n % 256 :: leBytes (n / 256) := by
  by_cases hn : n = 0
  · subst hn; simp [leBytes, leBytesAux]
  · obtain ⟨m, rfl⟩ : ∃ m, n = m + 1 := ⟨n - 1, by omega⟩
    have hlt : (m + 1) / 256 < m + 1 := Nat.div_lt_self (by omega) (by omega)
    have e2 : leBytes (m + 1)
        = (m + 1) % 256 :: leBytesAux m ((m + 1) / 256) := by
      simp [leBytes, leBytesAux]
    rw [e2, leBytesAux_eq ((m + 1) / 256) m (by omega)]
    simp

theorem beVal_append (xs : List Nat) (b : Nat) :
    beVal (xs ++ [b]) = beVal xs * 256 + b := by
  simp [beVal, List.foldl_append]

/-- Decoding the reversed (big-endian) digit list recovers the number. -/
theorem beVal_leBytes_reverse (n : Nat) : beVal (leBytes n).reverse = n := by
  induction n using Nat.strong_induction_on with
  | _ n ih =>
    rw [leBytes_unfold]
    by_cases hn : n = 0
    · simp [hn, beVal]
    · simp only [hn, if_false, List.reverse_cons]
      rw [beVal_append]
      have hlt : n / 256 < n := Nat.div_lt_self (Nat.pos_of_ne_zero hn) (by omega)
      rw [ih (n / 256) hlt]
      omega

theorem leBytes_length_le (n k : Nat) (h : n < 256 ^ k) : (leBytes n).length ≤ k := by
  induction k generalizing n with
  | zero =>
    have : n = 0 := by simpa using h
    simp [this, leBytes_unfold]
  | succ k ih =>
    rw [leBytes_unfold]
    by_cases hn : n = 0
    · simp [hn]
    · simp only [hn, if_false, List.length_cons]
      have : n / 256 < 256 ^ k := by
        rw [Nat.div_lt_iff_lt_mul (by omega)]
        calc n < 256 ^ (k + 1) := h
        _ = 256 ^ k * 256 := by ring
      exact Nat.succ_le_succ (ih _ this)

theorem leBytes_length_le_eight (n : Nat) (h : n < 2 ^ 64) : (leBytes n).length ≤ 8 := by
  refine leBytes_length_le n 8 ?_
  calc n < 2 ^ 64 := h
  _ = 256 ^ 8 := by norm_num

/-- Key codec lemma: decoding at the front of `encode n ++ rest` yields `n`
and consumes exactly the encoding's length. -/
theorem decode_encode_append (n : Nat) (rest : Bytes) (h : n < 2 ^ 64) :
    decodeOrderPreservingVarUint64 (encodeOrderPreservingVarUint64 n ++ rest)
      = some (n, (encodeOrderPreservingVarUint64 n).length) := by
  have hlen : (leBytes n).length ≤ 8 := leBytes_length_le_eight n h
  simp only [encodeOrderPreservingVarUint64, List.cons_append,
    decodeOrderPreservingVarUint64]
  have h128 : ¬ 128 ≤ (leBytes n).length := by omega
  have h8 : ¬ 8 < (leBytes n).length := by omega
  have hrev : (leBytes n).reverse.length = (leBytes n).length := by
    simp
  have hrl : ¬ ((leBytes n).reverse ++ rest).length < (leBytes n).length := by
    simp [hrev]
  simp only [h128, if_false, h8, hrl]
  have htake : ((leBytes n).reverse ++ rest).take (leBytes n).length
      = (leBytes n).reverse := by
    rw [← hrev, List.take_left]
  rw [htake, beVal_leBytes_reverse]
  simp

/-- Round-trip with nothing following the encoding. -/
theorem decode_encode (n : Nat) (h : n < 2 ^ 64) :
    decodeOrderPreservingVarUint64 (encodeOrderPreservingVarUint64 n)
      = some (n, (encodeOrderPreservingVarUint64 n).length) := by
  have := decode_encode_append n [] h
  simpa using this

/-! ## Key/Index encoder (`kv_encoding.go`) -/

/-- The composite-key separator byte (`compositeKeySep = []byte{0x00}`). -/
def compositeKeySep : Bytes := [0]

/-- `constructDataKey` builds `namespace ~ len(key) ~ key ~ minVersion`
(`kv_encoding.go` lines 33-40). -/
def constructDataKey (ns key : Bytes) (minVersion : Nat) : Bytes :=
  ns ++ compositeKeySep
     ++ encodeOrderPreservingVarUint64 key.length ++ key ++ compositeKeySep
     ++ encodeOrderPreservingVarUint64 minVersion

/-- `constructGlobalIndex` builds `namespace ~ len(key) ~ key`
(`kv_encoding.go` lines 42-47). -/
def constructGlobalIndex (ns key : Bytes) : Bytes :=
  ns ++ compositeKeySep ++ encodeOrderPreservingVarUint64 key.length ++ key

/-- `constructLocalIndex` builds `encode(blockNum) ‖ encode(tx_0) ‖ …`
(`kv_encoding.go` lines 49-56). -/
def constructLocalIndex (blockNum : Nat) (transactions : List Nat) : Bytes :=
  encodeOrderPreservingVarUint64 blockNum
    ++ (transactions.map encodeOrderPreservingVarUint64).flatten

/-- The transaction-decoding loop of `decodeLocalIndex`: repeatedly decode a
varint and advance by the consumed byte count until the buffer is exhausted
(`kv_encoding.go` lines 64-74; the loop variable `i` always equals
`currentTxStart` there, so the loop consumes the buffer front to back). The
first argument is recursion fuel; each successful decode consumes at least one
byte, so the buffer length suffices. -/
def decodeTxsAux : Nat → Bytes → Option (List Nat)
  | _, [] => some []
  | 0, _ :: _ => none
  | f + 1, s :: rest =>
    if 128 ≤ s then none
    else if 8 < s then none
    else if rest.length < s then none
    else
      match decodeTxsAux f (rest.drop s) with
      | none => none
      | some txs => some (beVal (rest.take s) :: txs)

def decodeTxs (bs : Bytes) : Option (List Nat) := decodeTxsAux bs.length bs

/-- `decodeLocalIndex` decodes the block number, then the transaction list
(`kv_encoding.go` lines 58-76). -/
def decodeLocalIndex (localIndex : Bytes) : Option (Nat × List Nat) :=
  match decodeOrderPreservingVarUint64 localIndex with
  | none => none
  | some (blockNum, consumed) =>
    match decodeTxs (localIndex.drop consumed) with
    | none => none
    | some transactions => some (blockNum, transactions)

/-- The range-scan bounds for `(ns, key)`.  Note the code appends
`EncodeOrderPreservingVarUint64(1)` to the start key, even though its own
doc comment documents `startKey = namespace~len(key)~key~`
(`kv_encoding.go` lines 82-93). -/
structure rangeScan where
  startKey : Bytes
  endKey : Bytes
deriving DecidableEq

def constructRangeScan (ns key : Bytes) : rangeScan :=
  let k := ns ++ compositeKeySep
     ++ encodeOrderPreservingVarUint64 key.length ++ key ++ compositeKeySep
  { startKey := k ++ encodeOrderPreservingVarUint64 1
    endKey := k ++ [255] }

/-- `bytes.TrimPrefix`: drop `pre` from the front of `s` when it is a prefix
of `s`, otherwise return `s` unchanged. -/
def trimPref (s pre : Bytes) : Bytes :=
  if s.take pre.length = pre then s.drop pre.length else s

/-- `rangeScan.decodeMinVersion` trims the scan's start key off the data key
and decodes what remains (`kv_encoding.go` lines 95-103). -/
def rangeScan.decodeMinVersion (r : rangeScan) (dataKey : Bytes) : Option Nat :=
  match decodeOrderPreservingVarUint64 (trimPref dataKey r.startKey) with
  | none => none
  | some (minVersion, _) => some minVersion

/-! ### C1: the data-key / range-scan round-trip -/

theorem trimPref_self (s : Bytes) : trimPref s s = [] := by
  simp [trimPref]

/-- C1: the claimed round-trip `decodeMinVersion (constructRangeScan ns key)
(constructDataKey ns key v) = v` fails: at `v = 1` the data key equals the
range scan's start key (which wrongly ends in `encode(1)`), so the trimmed
remainder is empty and decoding fails instead of returning `1`. -/
theorem decodeMinVersion_fails_at_version_one (ns key : Bytes) :
    (constructRangeScan ns key).decodeMinVersion (constructDataKey ns key 1)
      = none := by
  have hkey : constructDataKey ns key 1 = (constructRangeScan ns key).startKey := by
    simp [constructDataKey, constructRangeScan, List.append_assoc]
  rw [hkey, rangeScan.decodeMinVersion, trimPref_self]
  rfl

/-! ### C6: the LocalIndex round-trip -/

theorem decodeTxsAux_nil (f : Nat) : decodeTxsAux f [] = some [] := by
  cases f <;> rfl

theorem decodeTxsAux_eq : ∀ (n : Nat) (bs : Bytes), bs.length ≤ n →
    ∀ f, bs.length ≤ f → decodeTxsAux f bs = decodeTxsAux bs.length bs := by
  intro n
  induction n with
  | zero =>
    intro bs hb f _
    have hbs : bs = [] := List.length_eq_zero.mp (Nat.le_zero.mp hb)
    subst hbs
    rw [decodeTxsAux_nil, decodeTxsAux_nil]
  | succ n ih =>
    intro bs hb f hf
    match bs, f with
    | [], f => rw [decodeTxsAux_nil, decodeTxsAux_nil]
    | s :: rest, 0 => exact absurd hf (by simp)
    | s :: rest, f + 1 =>
      show decodeTxsAux (f + 1) (s :: rest) = decodeTxsAux (rest.length + 1) (s :: rest)
      simp only [decodeTxsAux]
      by_cases c₁ : 128 ≤ s
      · simp [c₁]
      by_cases c₂ : 8 < s
      · simp [c₁, c₂]
      by_cases c₃ : rest.length < s
      · simp [c₁, c₂, c₃]
      simp only [c₁, c₂, c₃, if_false]
      have hd : (rest.drop s).length ≤ n := by
        simp only [List.length_drop]
        simp only [List.length_cons] at hb
        omega
      rw [ih (rest.drop s) hd f
            (by simp only [List.length_drop]; simp only [List.length_cons] at hf; omega),
          ih (rest.drop s) hd rest.length (by simp [List.length_drop])]

theorem decodeTxsAux_fuel (f₁ f₂ : Nat) (bs : Bytes)
    (h₁ : bs.length ≤ f₁) (h₂ : bs.length ≤ f₂) :
    decodeTxsAux f₁ bs = decodeTxsAux f₂ bs := by
  rw [decodeTxsAux_eq bs.length bs (le_refl _) f₁ h₁,
      decodeTxsAux_eq bs.length bs (le_refl _) f₂ h₂]

/-- Decoding the concatenated encodings of a transaction list recovers it. -/
theorem decodeTxs_flatten (txs : List Nat) (h : ∀ t ∈ txs, t < 2 ^ 64) :
    decodeTxs (txs.map encodeOrderPreservingVarUint64).flatten = some txs := by
  induction txs with
  | nil => rfl
  | cons t ts ih =>
    have ht : t < 2 ^ 64 := h t (by simp)
    have hts : ∀ x ∈ ts, x < 2 ^ 64 := fun x hx => h x (by simp [hx])
    have hlen : (leBytes t).length ≤ 8 := leBytes_length_le_eight t ht
    simp only [List.map_cons, List.flatten_cons]
    simp only [encodeOrderPreservingVarUint64, List.cons_append]
    rw [decodeTxs]
    simp only [List.length_cons, decodeTxsAux]
    have h128 : ¬ 128 ≤ (leBytes t).length := by omega
    have h8 : ¬ 8 < (leBytes t).length := by omega
    have hrl : ¬ ((leBytes t).reverse ++ (ts.map encodeOrderPreservingVarUint64).flatten).length
        < (leBytes t).length := by simp
    simp only [h128, if_false, h8, hrl]
    have hrev : (leBytes t).reverse.length = (leBytes t).length := by simp
    have htake : ((leBytes t).reverse ++ (ts.map encodeOrderPreservingVarUint64).flatten).take
        (leBytes t).length = (leBytes t).reverse := by
      rw [← hrev, List.take_left]
    have hdrop : ((leBytes t).reverse ++ (ts.map encodeOrderPreservingVarUint64).flatten).drop
        (leBytes t).length = (ts.map encodeOrderPreservingVarUint64).flatten := by
      rw [← hrev, List.drop_left]
    rw [htake, hdrop, beVal_leBytes_reverse]
    rw [decodeTxsAux_fuel _ (ts.map encodeOrderPreservingVarUint64).flatten.length _ (by simp) (le_refl _)]
    rw [← decodeTxs, ih hts]

/-- Shared round-trip lemma for LocalIndex values. -/
theorem decodeLocalIndex_constructLocalIndex (blockNum : Nat) (txs : List Nat)
    (hb : blockNum < 2 ^ 64) (ht : ∀ t ∈ txs, t < 2 ^ 64) :
    decodeLocalIndex (constructLocalIndex blockNum txs) = some (blockNum, txs) := by
  have h1 : decodeOrderPreservingVarUint64 (constructLocalIndex blockNum txs)
      = some (blockNum, (encodeOrderPreservingVarUint64 blockNum).length) := by
    rw [constructLocalIndex]
    exact decode_encode_append blockNum _ hb
  simp only [decodeLocalIndex, h1]
  rw [constructLocalIndex, List.drop_left, decodeTxs_flatten txs ht]

/-- C6: for every block number and non-empty transaction list (of `uint64`
values), `decodeLocalIndex` inverts `constructLocalIndex` exactly. -/
theorem localIndex_round_trip (blockNum : Nat) (txs : List Nat)
    (hb : blockNum < 2 ^ 64) (ht : ∀ t ∈ txs, t < 2 ^ 64) (_hne : txs ≠ []) :
    decodeLocalIndex (constructLocalIndex blockNum txs) = some (blockNum, txs) :=
  decodeLocalIndex_constructLocalIndex blockNum txs hb ht

/-- Witness for C6 at a concrete input. -/
theorem localIndex_round_trip_witness :
    decodeLocalIndex (constructLocalIndex 300 [0, 5, 700]) = some (300, [0, 5, 700]) :=
  localIndex_round_trip 300 [0, 5, 700] (by norm_num)
    (by intro t htm; fin_cases htm <;> norm_num) (by simp)

/-! ## Bounded LRU caches

Three near-duplicate implementations exist: `tx_cache.go` (keyed by a
location pointer, values `[]byte`, miss returns `nil, false`),
`src/unnamed/part_000` (keyed by a `(blockNum, tranNum)` pair, values
`*fileLocPointer`, miss returns a freshly built non-nil pointer and `false`),
and `src/unnamed/part_001` (same keys/values as part_000, mutex-guarded,
miss returns `nil, false`).  All three share the same `Put` logic.  The Go
`map` plus `container/list` pair is modelled as a single recency-ordered
association list (most recent first); a Go nil pointer / nil slice is
`Option.none`.  The mutex of part_001 only serialises calls and does not
change the sequential step semantics modelled here. -/

structure LRUCache (K V : Type) where
  capacity : Nat
  entries : List (K × V)

/-- `NewLRUCache` builds an empty cache; the sources instantiate it with
capacity `CACHE_SIZE` = 10000 (tx_cache.go, part_000) or 100000 (part_001). -/
def NewLRUCache (K V : Type) (capacity : Nat) : LRUCache K V :=
  { capacity := capacity, entries := [] }

variable {K V : Type} [DecidableEq K]

/-- `LRUCache.Get` for the `tx_cache.go` and part_001 variants: on a hit,
move the entry to the front and return its value with `true`; on a miss
return `nil, false` (modelled as `(none, false)`). -/
def LRUCache.Get (c : LRUCache K V) (k : K) : (Option V × Bool) × LRUCache K V :=
  match c.entries.find? (fun e => decide (e.1 = k)) with
  | some e =>
    ((some e.2, true),
      { capacity := c.capacity
        entries := e :: c.entries.eraseP (fun e => decide (e.1 = k)) })
  | none => ((none, false), c)

/-- `LRUCache.Put`: on a hit, update the value and move the entry to the
front; otherwise evict the list tail when the cache is full
(`list.Len() >= capacity`) and push the new entry at the front. -/
def LRUCache.Put (c : LRUCache K V) (k : K) (v : V) : LRUCache K V :=
  if (c.entries.find? (fun e => decide (e.1 = k))).isSome then
    { capacity := c.capacity
      entries := (k, v) :: c.entries.eraseP (fun e => decide (e.1 = k)) }
  else
    { capacity := c.capacity
      entries :=
        (k, v) :: (if c.capacity ≤ c.entries.length
                   then c.entries.dropLast else c.entries) }

/-- A block-file location pointer (`fileLocPointer`), the value type cached
by part_000/part_001.  Its fields are irrelevant to the cache logic. -/
structure fileLocPointer where
  fileSuffixNum : Nat
  offset : Nat
  bytesLength : Nat
deriving DecidableEq

/-- Modelled from the spec: `newFileLocationPointer(0, 0, nil)` — the
constructor called on the miss path of part_000's `Get` is not among the
provided sources; per the spec (§9) that path returns "a sentinel non-nil
value on miss". -/
def newFileLocationPointer : fileLocPointer :=
  { fileSuffixNum := 0, offset := 0, bytesLength := 0 }

/-- `LRUCache.Get` of the part_000 variant: identical to `LRUCache.Get`
except the miss branch returns the non-nil sentinel pointer
`newFileLocationPointer(0, 0, nil)` together with `false`. -/
def LRUCache.GetWithSentinel
    (c : LRUCache (Nat × Nat) (Option fileLocPointer)) (bt : Nat × Nat) :
    (Option fileLocPointer × Bool) × LRUCache (Nat × Nat) (Option fileLocPointer) :=
  match c.entries.find? (fun e => decide (e.1 = bt)) with
  | some e =>
    ((e.2, true),
      { capacity := c.capacity
        entries := e :: c.entries.eraseP (fun e => decide (e.1 = bt)) })
  | none => ((some newFileLocationPointer, false), c)

/-- Sequentially `Put` a list of key/value pairs. -/
def putAll (c : LRUCache K V) (ps : List (K × V)) : LRUCache K V :=
  ps.foldl (fun c p => c.Put p.1 p.2) c

/-! ### LRU lemmas -/

theorem find?_key_eq_none {l : List (K × V)} {k : K} (h : k ∉ l.map Prod.fst) :
    l.find? (fun e => decide (e.1 = k)) = none := by
  rw [List.find?_eq_none]
  intro x hx
  simp only [decide_eq_true_eq]
  intro hxk
  exact h (by simpa [hxk] using List.mem_map_of_mem Prod.fst hx)

theorem find?_key_nodup {l : List (K × V)} {k : K} {v : V}
    (hnd : (l.map Prod.fst).Nodup) (hm : (k, v) ∈ l) :
    l.find? (fun e => decide (e.1 = k)) = some (k, v) := by
  induction l with
  | nil => simp at hm
  | cons e t ih =>
    simp only [List.map_cons, List.nodup_cons] at hnd
    by_cases he : e.1 = k
    · have hnt : k ∉ t.map Prod.fst := he ▸ hnd.1
      have hev : e = (k, v) := by
        rcases List.mem_cons.mp hm with h1 | h2
        · exact h1.symm
        · exact absurd (by simpa [he] using List.mem_map_of_mem Prod.fst h2)
            (by simpa using hnt)
      rw [List.find?_cons, hev]
      simp
    · rw [List.find?_cons]
      have : decide (e.1 = k) = false := by simp [he]
      rw [this]
      refine ih hnd.2 ?_
      rcases List.mem_cons.mp hm with h1 | h2
      · exact absurd (by rw [← h1]) he
      · exact h2

theorem Put_capacity (c : LRUCache K V) (k : K) (v : V) :
    (c.Put k v).capacity = c.capacity := by
  rw [LRUCache.Put]
  split <;> rfl

theorem putAll_capacity (c : LRUCache K V) (ps : List (K × V)) :
    (putAll c ps).capacity = c.capacity := by
  induction ps generalizing c with
  | nil => rfl
  | cons p t ih => rw [putAll, List.foldl_cons, ← putAll, ih, Put_capacity]

theorem not_mem_of_nodup_concat {α' : Type} {xs : List α'} {a : α'}
    (h : (xs ++ [a]).Nodup) : a ∉ xs := fun hm =>
  List.disjoint_of_nodup_append h hm (by simp)

/-- Filling an empty cache with at most `capacity` fresh, distinct keys keeps
every entry: the recency list is the insertion list reversed. -/
theorem putAll_entries (cap : Nat) (ps : List (K × V))
    (hnd : (ps.map Prod.fst).Nodup) (hlen : ps.length ≤ cap) :
    (putAll (NewLRUCache K V cap) ps).entries = ps.reverse := by
  induction ps using List.reverseRecOn with
  | nil => rfl
  | append_singleton l p ih =>
    have hnd' : (l.map Prod.fst ++ [p.1]).Nodup := by simpa using hnd
    have hndl : (l.map Prod.fst).Nodup := hnd'.of_append_left
    have hfresh : p.1 ∉ l.map Prod.fst := not_mem_of_nodup_concat hnd'
    have hlenl : l.length ≤ cap := by
      simp only [List.length_append] at hlen
      omega
    have hstep : putAll (NewLRUCache K V cap) (l ++ [p])
        = (putAll (NewLRUCache K V cap) l).Put p.1 p.2 := by
      rw [putAll, List.foldl_append, List.foldl_cons, List.foldl_nil, ← putAll]
    rw [hstep]
    have hent : (putAll (NewLRUCache K V cap) l).entries = l.reverse := ih hndl hlenl
    rw [LRUCache.Put, hent]
    have hfind : l.reverse.find? (fun e => decide (e.1 = p.1)) = none :=
      find?_key_eq_none (by simpa [List.map_reverse] using hfresh)
    rw [hfind]
    have hcap : (putAll (NewLRUCache K V cap) l).capacity = cap :=
      putAll_capacity _ _
    rw [hcap]
    have hnlt : ¬ cap ≤ l.reverse.length := by
      simp only [List.length_reverse]
      simp only [List.length_append, List.length_cons, List.length_nil] at hlen
      omega
    simp only [Option.isSome_none, Bool.false_eq_true, if_false, hnlt,
      List.reverse_append, List.reverse_cons, List.reverse_nil, List.nil_append,
      List.singleton_append]

/-! ### C8: eviction of exactly the least-recently-used entry -/

/-- C8: pushing `capacity + 1` distinct fresh keys into an empty cache evicts
exactly the first key: afterwards `Get` misses on the first key and hits,
with the stored value, on every later key. -/
theorem lru_eviction (cap : Nat) (hcap : 0 < cap) (p₁ : K × V) (rest : List (K × V))
    (hlen : rest.length = cap) (hnd : ((p₁ :: rest).map Prod.fst).Nodup) :
    (((putAll (NewLRUCache K V cap) (p₁ :: rest)).Get p₁.1).1 = (none, false)) ∧
    (∀ p ∈ rest, ((putAll (NewLRUCache K V cap) (p₁ :: rest)).Get p.1).1
        = (some p.2, true)) := by
  have hne : rest ≠ [] := by
    intro h
    rw [h] at hlen
    simp at hlen
    omega
  obtain ⟨mid, pl, rfl⟩ : ∃ mid pl, rest = mid ++ [pl] := by
    refine ⟨rest.dropLast, rest.getLast hne, ?_⟩
    exact (List.dropLast_concat_getLast hne).symm
  -- the first `cap` puts fill the cache; the last one evicts `p₁`
  have hstep : putAll (NewLRUCache K V cap) (p₁ :: (mid ++ [pl]))
      = (putAll (NewLRUCache K V cap) (p₁ :: mid)).Put pl.1 pl.2 := by
    rw [putAll, show p₁ :: (mid ++ [pl]) = (p₁ :: mid) ++ [pl] by simp,
      List.foldl_append, List.foldl_cons, List.foldl_nil, ← putAll]
  have hnd' : ((p₁ :: mid).map Prod.fst ++ [pl.1]).Nodup := by
    simpa using hnd
  have hndfront : ((p₁ :: mid).map Prod.fst).Nodup := hnd'.of_append_left
  have hlenfront : (p₁ :: mid).length ≤ cap := by
    simp only [List.length_append, List.length_cons, List.length_nil] at hlen
    simp only [List.length_cons]
    omega
  have hfront : (putAll (NewLRUCache K V cap) (p₁ :: mid)).entries
      = (p₁ :: mid).reverse := putAll_entries cap _ hndfront hlenfront
  have hplfresh : pl.1 ∉ (p₁ :: mid).map Prod.fst := not_mem_of_nodup_concat hnd'
  have hplrev : pl.1 ∉ (p₁ :: mid).reverse.map Prod.fst := by
    rw [List.map_reverse, List.mem_reverse]
    exact hplfresh
  have hentries : ((putAll (NewLRUCache K V cap) (p₁ :: mid)).Put pl.1 pl.2).entries
      = (mid ++ [pl]).reverse := by
    rw [LRUCache.Put, hfront]
    rw [find?_key_eq_none hplrev]
    simp only [Option.isSome_none, Bool.false_eq_true, if_false]
    rw [putAll_capacity]
    have hcap2 : (NewLRUCache K V cap).capacity = cap := rfl
    have hful : cap ≤ (p₁ :: mid).reverse.length := by
      simp only [List.length_reverse, List.length_cons]
      simp only [List.length_append, List.length_cons, List.length_nil] at hlen
      omega
    have hdl : (p₁ :: mid).reverse.dropLast = mid.reverse := by
      rw [List.reverse_cons, List.dropLast_concat]
    rw [hcap2, if_pos hful, hdl, List.reverse_append]
    simp
  rw [hstep]
  constructor
  · -- `p₁` was evicted
    have hnd₁ : p₁.1 ∉ ((mid ++ [pl]).map Prod.fst) := by
      have h := hnd
      simp only [List.map_cons, List.nodup_cons] at h
      exact h.1
    have h1 : p₁.1 ∉ ((mid ++ [pl]).reverse.map Prod.fst) := by
      rw [List.map_reverse, List.mem_reverse]
      exact hnd₁
    rw [LRUCache.Get, hentries, find?_key_eq_none h1]
  · -- every key of `rest` is still present with its value
    intro p hp
    have hndrest : ((mid ++ [pl]).map Prod.fst).Nodup := by
      have h := hnd
      simp only [List.map_cons, List.nodup_cons] at h
      exact h.2
    have hndrev : ((mid ++ [pl]).reverse.map Prod.fst).Nodup := by
      rw [List.map_reverse]
      exact List.nodup_reverse.mpr hndrest
    have hmem : p ∈ (mid ++ [pl]).reverse := List.mem_reverse.mpr hp
    rw [LRUCache.Get, hentries]
    have hfd : (mid ++ [pl]).reverse.find? (fun e => decide (e.1 = p.1))
        = some (p.1, p.2) := find?_key_nodup hndrev hmem
    rw [hfd]

/-- Witness for C8: capacity 2, keys 1,2,3; key 1 is evicted, keys 2,3 hit. -/
theorem lru_eviction_witness :
    (((putAll (NewLRUCache Nat Nat 2) ((1, 10) :: [(2, 20), (3, 30)])).Get 1).1
        = (none, false)) ∧
    (∀ p ∈ [(2, 20), (3, 30)],
      ((putAll (NewLRUCache Nat Nat 2) ((1, 10) :: [(2, 20), (3, 30)])).Get p.1).1
        = (some p.2, true)) :=
  lru_eviction 2 (by norm_num) (1, 10) [(2, 20), (3, 30)] (by simp) (by simp)

/-! ### C9: behaviour of the miss branch -/

/-- Counterexample for C9: the part_000 `Get` variant, on a key that is
absent (here: the empty cache), returns `false` together with a non-nil
sentinel pointer instead of returning no value. -/
theorem lruGet_miss_returns_sentinel :
    ((NewLRUCache (Nat × Nat) (Option fileLocPointer) 10000).GetWithSentinel
        (0, 0)).1 = (some newFileLocationPointer, false) ∧
      some newFileLocationPointer ≠ (none : Option fileLocPointer) :=
  ⟨rfl, by simp⟩

/-- C9 (amended): the `tx_cache.go` / part_001 miss branch returns absence
and no value, while the part_000 miss branch returns `false` but a non-nil
sentinel pointer. -/
theorem lruGet_miss_behavior (c : LRUCache K V) (k : K)
    (h : k ∉ c.entries.map Prod.fst)
    (c₀ : LRUCache (Nat × Nat) (Option fileLocPointer)) (bt : Nat × Nat)
    (h₀ : bt ∉ c₀.entries.map Prod.fst) :
    (c.Get k).1 = (none, false) ∧
      (c₀.GetWithSentinel bt).1 = (some newFileLocationPointer, false) := by
  constructor
  · rw [LRUCache.Get, find?_key_eq_none h]
  · rw [LRUCache.GetWithSentinel, find?_key_eq_none h₀]

/-- Witness for C9's amended claim at concrete caches. -/
theorem lruGet_miss_behavior_witness :
    ((putAll (NewLRUCache Nat Nat 3) [(1, 10)]).Get 2).1 = (none, false) ∧
      ((NewLRUCache (Nat × Nat) (Option fileLocPointer) 10000).GetWithSentinel
          (5, 7)).1 = (some newFileLocationPointer, false) :=
  lruGet_miss_behavior (putAll (NewLRUCache Nat Nat 3) [(1, 10)]) 2
    (by simp [putAll, NewLRUCache, LRUCache.Put])
    (NewLRUCache (Nat × Nat) (Option fileLocPointer) 10000) (5, 7) (by simp [NewLRUCache])

/-! ## Scanner state machines

The query executor's scanners are stateful iterators over a LevelDB range
iterator.  External collaborators are modelled as parameters:

* the range iterator's contents are the list of `(key, value)` pairs the
  ordered store holds in the requested range, in ascending key order;
* `RetrieveTxByBlockNumTranNum` composed with `getKeyModificationFromTran`
  (block store plus transaction decoding) is a function
  `env : blockNum → tranNum → Option KeyModification`; `none` covers every
  error path of that pipeline (retrieval failure, unmarshalling failure, and
  the "key not found in write set" inconsistency error).

A scanner step (`Next`) either produces a result, reports a clean end of
iteration (`nil, nil` in Go), returns an error, or faults (a Go runtime
panic such as an out-of-range slice index). -/

/-- The externally visible result record (`queryresult.KeyModification`). -/
structure KeyModification where
  txId : Bytes
  value : Bytes
  timestamp : Nat
  isDelete : Bool
deriving DecidableEq

/-- Outcome of one `Next()` call. -/
inductive StepRes where
  | res (m : KeyModification)
  | done
  | err
  | fault
deriving DecidableEq

/-- A goleveldb range iterator over a fixed entry list: `pos = -1` is
before-first, `pos = entries.length` is after-last. -/
structure DBItr where
  entries : List (Bytes × Bytes)
  pos : Int
deriving DecidableEq

def DBItr.valid (it : DBItr) : Bool :=
  decide (0 ≤ it.pos) && decide (it.pos < (it.entries.length : Int))

/-- `Last()`: move to the final entry, reporting whether one exists. -/
def DBItr.last (it : DBItr) : Bool × DBItr :=
  if it.entries.length = 0 then (false, { it with pos := -1 })
  else (true, { it with pos := (it.entries.length : Int) - 1 })

/-- `Next()`: advance the cursor (saturating past the end). -/
def DBItr.next (it : DBItr) : Bool × DBItr :=
  let p := if it.pos + 1 ≤ (it.entries.length : Int) then it.pos + 1
           else (it.entries.length : Int)
  ((DBItr.mk it.entries p).valid, { it with pos := p })

/-- `Prev()`: move the cursor back (saturating before the start). -/
def DBItr.prev (it : DBItr) : Bool × DBItr :=
  let p := if -1 ≤ it.pos - 1 then it.pos - 1 else -1
  ((DBItr.mk it.entries p).valid, { it with pos := p })

/-- `Key()`: the current entry's key; `nil` (empty) when invalid. -/
def DBItr.key (it : DBItr) : Bytes :=
  if it.valid then ((it.entries.get? it.pos.toNat).map Prod.fst).getD [] else []

/-- `Value()`: the current entry's value; `nil` (empty) when invalid. -/
def DBItr.value (it : DBItr) : Bytes :=
  if it.valid then ((it.entries.get? it.pos.toNat).map Prod.snd).getD [] else []

/-- Run a scanner: call `step` up to `fuel` times, collecting results until a
non-result step; the boolean records whether iteration ended cleanly
(`done`) within the fuel. -/
def runSteps {σ : Type} (step : σ → StepRes × σ) : Nat → σ → List KeyModification × Bool
  | 0, _ => ([], false)
  | f + 1, s =>
    match step s with
    | (.res m, s') =>
      let p := runSteps step f s'
      (m :: p.1, p.2)
    | (.done, _) => ([], true)
    | (.err, _) => ([], false)
    | (.fault, _) => ([], false)

/-- `Emits step s out s'`: from state `s`, successive steps produce exactly
the results `out` and reach state `s'`. -/
inductive Emits {σ : Type} (step : σ → StepRes × σ) : σ → List KeyModification → σ → Prop
  | nil (s : σ) : Emits step s [] s
  | cons {s s₁ s₂ : σ} {m : KeyModification} {out : List KeyModification} :
      step s = (.res m, s₁) → Emits step s₁ out s₂ → Emits step s (m :: out) s₂

/-- `Yields step s out`: from `s` the scanner produces exactly `out` and then
reports a clean end of iteration. -/
def Yields {σ : Type} (step : σ → StepRes × σ) (s : σ) (out : List KeyModification) : Prop :=
  ∃ s₁ s₂, Emits step s out s₁ ∧ step s₁ = (.done, s₂)

theorem Emits.append_emits {σ : Type} {step : σ → StepRes × σ} {s s₁ s₂ : σ}
    {out₁ out₂ : List KeyModification} (h₁ : Emits step s out₁ s₁)
    (h₂ : Emits step s₁ out₂ s₂) : Emits step s (out₁ ++ out₂) s₂ := by
  induction h₁ with
  | nil => simpa using h₂
  | cons hstep _ ih => exact Emits.cons hstep (ih h₂)

theorem Yields.of_emits {σ : Type} {step : σ → StepRes × σ} {s s₁ : σ}
    {out₁ out₂ : List KeyModification} (h₁ : Emits step s out₁ s₁)
    (h₂ : Yields step s₁ out₂) : Yields step s (out₁ ++ out₂) := by
  obtain ⟨t₁, t₂, hE, hD⟩ := h₂
  exact ⟨t₁, t₂, h₁.append_emits hE, hD⟩

theorem Yields.cons {σ : Type} {step : σ → StepRes × σ} {s s₁ : σ}
    {m : KeyModification} {out : List KeyModification}
    (h : step s = (.res m, s₁)) (hy : Yields step s₁ out) :
    Yields step s (m :: out) := by
  obtain ⟨t₁, t₂, hE, hD⟩ := hy
  exact ⟨t₁, t₂, Emits.cons h hE, hD⟩

theorem Yields.congr_first {σ : Type} {step : σ → StepRes × σ} {s t : σ}
    {out : List KeyModification} (hst : step s = step t)
    (hy : Yields step t out) : Yields step s out := by
  obtain ⟨t₁, t₂, hE, hD⟩ := hy
  cases hE with
  | nil => exact ⟨s, t₂, Emits.nil s, by rw [hst]; exact hD⟩
  | cons hstep hrest => exact ⟨t₁, t₂, Emits.cons (hst ▸ hstep) hrest, hD⟩

theorem runSteps_of_yields {σ : Type} (step : σ → StepRes × σ) {s : σ}
    {out : List KeyModification} (hy : Yields step s out) :
    ∀ f, out.length + 1 ≤ f → runSteps step f s = (out, true) := by
  obtain ⟨s₁, s₂, hE, hD⟩ := hy
  induction hE with
  | nil s₀ =>
    intro f hf
    obtain ⟨g, rfl⟩ : ∃ g, f = g + 1 := ⟨f - 1, by omega⟩
    simp only [runSteps, hD]
  | cons hstep _ ih =>
    intro f hf
    obtain ⟨g, rfl⟩ : ∃ g, f = g + 1 := ⟨f - 1, by omega⟩
    simp only [runSteps, hstep]
    rw [ih hD g (by simp at hf ⊢; omega)]

/-! ## Single-key history scanner (part_002 variant)

`QueryExecutor.GetHistoryForKey` and `historyScanner.Next` from
`src/unnamed/part_002` (the variant coherent with `kv_encoding.go`). -/

/-- Modelled from the spec: `decodeNewIndex`, the LocalIndex value decoder
the part_002 scanners call, is not among the provided sources; per the spec
(§3) a LocalIndex value is `encode(blockNum) ‖ encode(tx_0) ‖ encode(tx_1) ‖ …`,
which is exactly what `decodeLocalIndex` decodes. -/
def decodeNewIndex : Bytes → Option (Nat × List Nat) := decodeLocalIndex

/-- The mutable state of `historyScanner` (part_002).  The `namespace`,
`key` and `blockStore` fields are carried by the Go struct but only feed the
block-store/decoding pipeline modelled by the `env` parameter of `Next`; the
`rangeScan` field is never read by this variant's `Next`. -/
structure historyScanner where
  itr : DBItr
  currentBlock : Nat
  transactions : List Nat
  txIndex : Int
deriving DecidableEq

/-- The tail of `historyScanner.Next` from the line
`tranNum := scanner.transactions[scanner.txIndex]` on: read the transaction
number (a Go panic if `txIndex` is out of range), decrement `txIndex`, and
resolve the modification through the block store / transaction decoder. -/
def historyScanner.emit (env : Nat → Nat → Option KeyModification)
    (s : historyScanner) : StepRes × historyScanner :=
  if 0 ≤ s.txIndex then
    match s.transactions.get? s.txIndex.toNat with
    | none => (.fault, s)
    | some tranNum =>
      let s' := { s with txIndex := s.txIndex - 1 }
      match env s.currentBlock tranNum with
      | none => (.err, s')
      | some m => (.res m, s')
  else (.fault, s)

/-- `historyScanner.Next` (part_002 lines 60-101): when the current block's
transaction list is exhausted (`txIndex <= -1`), step the iterator backwards
and decode the next index entry; then emit the transaction at `txIndex`. -/
def historyScanner.Next (env : Nat → Nat → Option KeyModification)
    (s : historyScanner) : StepRes × historyScanner :=
  if s.txIndex ≤ -1 then
    match DBItr.prev s.itr with
    | (false, it') => (.done, { s with itr := it' })
    | (true, it') =>
      match decodeNewIndex it'.value with
      | none => (.err, { s with itr := it' })
      | some (blk, txs) =>
        historyScanner.emit env
          { itr := it', currentBlock := blk, transactions := txs,
            txIndex := (txs.length : Int) - 1 }
  else historyScanner.emit env s

/-- `QueryExecutor.GetHistoryForKey` (part_002 lines 29-43): open the range
iterator (its contents are the parameter), position it one past the end via
`Last()`/`Next()`, and return a scanner with `txIndex = -1`. -/
def getHistoryForKey (entries : List (Bytes × Bytes)) : historyScanner :=
  let it₀ : DBItr := { entries := entries, pos := -1 }
  let r := DBItr.last it₀
  let it₂ := if r.1 then (DBItr.next r.2).2 else r.2
  { itr := it₂, currentBlock := 0, transactions := [], txIndex := -1 }

/-! ### The index well-formedness hypotheses for history queries -/

/-- One decoded index entry: the minimum version it covers, its block
number, and the ascending intra-block transaction numbers. -/
structure IdxEntry where
  minVer : Nat
  blockNum : Nat
  txs : List Nat
deriving DecidableEq

/-- The stored `(DataKey, LocalIndex)` pair of an entry. -/
def IdxEntry.kv (ns key : Bytes) (e : IdxEntry) : Bytes × Bytes :=
  (constructDataKey ns key e.minVer, constructLocalIndex e.blockNum e.txs)

/-- The range-scan contents for a key whose index entries are `es`. -/
def entriesBytes (ns key : Bytes) (es : List IdxEntry) : List (Bytes × Bytes) :=
  es.map (IdxEntry.kv ns key)

/-- Total number of indexed transactions, i.e. the key's version count. -/
def totalTxs (es : List IdxEntry) : Nat := (es.map (fun e => e.txs.length)).sum

/-- `goodIndex env mods v es`: the entries `es` (in ascending key order)
record the key's writes for the contiguous versions `v, v+1, …`; each entry
is non-empty, its fields fit in `uint64`, and the block-store pipeline
resolves version `w` to the modification `mods w`. -/
def goodIndex (env : Nat → Nat → Option KeyModification)
    (mods : Nat → KeyModification) : Nat → List IdxEntry → Prop
  | _, [] => True
  | v, e :: es =>
    e.txs ≠ [] ∧ e.minVer = v ∧ e.blockNum < 2 ^ 64 ∧ (∀ t ∈ e.txs, t < 2 ^ 64) ∧
    (∀ j (hj : j < e.txs.length),
      env e.blockNum (e.txs.get ⟨j, hj⟩) = some (mods (v + j))) ∧
    goodIndex env mods (v + e.txs.length) es

theorem totalTxs_append (a b : List IdxEntry) :
    totalTxs (a ++ b) = totalTxs a + totalTxs b := by
  simp [totalTxs]

theorem totalTxs_take_succ (es : List IdxEntry) (p : Nat) (hp : p < es.length) :
    totalTxs (es.take (p + 1)) = totalTxs (es.take p) + (es.get ⟨p, hp⟩).txs.length := by
  rw [List.take_succ, totalTxs_append]
  have : es[p]? = some (es.get ⟨p, hp⟩) := by
    rw [← List.get?_eq_getElem?]
    exact List.get?_eq_get hp
  rw [this]
  simp [totalTxs]

theorem goodIndex_get (env : Nat → Nat → Option KeyModification)
    (mods : Nat → KeyModification) :
    ∀ (es : List IdxEntry) (v : Nat), goodIndex env mods v es →
    ∀ (p : Nat) (hp : p < es.length),
      (es.get ⟨p, hp⟩).txs ≠ [] ∧
      (es.get ⟨p, hp⟩).minVer = v + totalTxs (es.take p) ∧
      (es.get ⟨p, hp⟩).blockNum < 2 ^ 64 ∧
      (∀ t ∈ (es.get ⟨p, hp⟩).txs, t < 2 ^ 64) ∧
      (∀ j (hj : j < (es.get ⟨p, hp⟩).txs.length),
        env (es.get ⟨p, hp⟩).blockNum ((es.get ⟨p, hp⟩).txs.get ⟨j, hj⟩)
          = some (mods ((es.get ⟨p, hp⟩).minVer + j))) := by
  intro es
  induction es with
  | nil => intro v _ p hp; simp at hp
  | cons e t ih =>
    intro v h p hp
    obtain ⟨hne, hmv, hblk, htx, henv, hrest⟩ := h
    match p with
    | 0 =>
      refine ⟨hne, ?_, hblk, htx, ?_⟩
      · show e.minVer = v + totalTxs (List.take 0 (e :: t))
        simpa [totalTxs] using hmv
      · show ∀ j (hj : j < e.txs.length),
          env e.blockNum (e.txs.get ⟨j, hj⟩) = some (mods (e.minVer + j))
        intro j hj
        rw [henv j hj, hmv]
    | p + 1 =>
      have hp' : p < t.length := by simpa using hp
      have hfacts := ih (v + e.txs.length) hrest p hp'
      refine ⟨hfacts.1, ?_, hfacts.2.2.1, hfacts.2.2.2.1, hfacts.2.2.2.2⟩
      show (t.get ⟨p, hp'⟩).minVer = v + totalTxs ((e :: t).take (p + 1))
      rw [hfacts.2.1]
      simp only [List.take_succ_cons, totalTxs, List.map_cons, List.sum_cons]
      omega

/-! ### C2 proof: draining one block, then the entry induction -/

theorem range'_snoc (a n : Nat) : List.range' a (n + 1) = List.range' a n ++ [a + n] := by
  induction n generalizing a with
  | zero => simp [List.range'_succ]
  | succ n ih =>
    rw [List.range'_succ a (n + 1), ih (a + 1), List.range'_succ a n]
    have hc : a + 1 + n = a + (n + 1) := by omega
    simp [hc]

/-- Draining the loaded block: with `txIndex = k`, the next `k + 1` steps
emit versions `mv + k` down to `mv` and leave `txIndex = -1`. -/
theorem emits_block (env : Nat → Nat → Option KeyModification)
    (mods : Nat → KeyModification) (b mv : Nat) (txs : List Nat)
    (henv : ∀ j (hj : j < txs.length), env b (txs.get ⟨j, hj⟩) = some (mods (mv + j))) :
    ∀ (k : Nat), k < txs.length →
    ∀ (s : historyScanner), s.transactions = txs → s.currentBlock = b →
      s.txIndex = (k : Int) →
      Emits (historyScanner.Next env) s
        (((List.range' mv (k + 1)).reverse).map mods) { s with txIndex := -1 } := by
  intro k
  induction k with
  | zero =>
    intro hk s htx hb hidx
    have hstep : historyScanner.Next env s = (.res (mods mv), { s with txIndex := -1 }) := by
      rw [historyScanner.Next, if_neg (by rw [hidx]; omega), historyScanner.emit,
        if_pos (by rw [hidx]; omega)]
      rw [htx, hidx, hb]
      have hc : (((0 : Nat) : Int)).toNat = 0 := rfl
      rw [hc, List.get?_eq_get hk]
      have hm : ((0 : Nat) : Int) - 1 = (-1 : Int) := by omega
      have he : env b txs[0] = some (mods mv) := by simpa using henv 0 hk
      simp [hm, he]
    have hone : ((List.range' mv 1).reverse).map mods = [mods mv] := by simp
    rw [hone]
    exact Emits.cons hstep (Emits.nil _)
  | succ k ih =>
    intro hk s htx hb hidx
    have hstep : historyScanner.Next env s
        = (.res (mods (mv + (k + 1))), { s with txIndex := (k : Int) }) := by
      rw [historyScanner.Next, if_neg (by rw [hidx]; omega), historyScanner.emit,
        if_pos (by rw [hidx]; omega)]
      rw [htx, hidx, hb]
      have hki : ((k + 1 : Nat) : Int).toNat = k + 1 := by omega
      rw [hki, List.get?_eq_get hk]
      have hm : ((k + 1 : Nat) : Int) - 1 = (k : Int) := by omega
      have he : env b txs[k + 1] = some (mods (mv + (k + 1))) := by
        simpa using henv (k + 1) hk
      simp [hm, he]
    have hsplit : ((List.range' mv (k + 2)).reverse).map mods
        = mods (mv + (k + 1)) :: ((List.range' mv (k + 1)).reverse).map mods := by
      have : List.range' mv (k + 2) = List.range' mv (k + 1) ++ [mv + (k + 1)] :=
        range'_snoc mv (k + 1)
      rw [this]
      simp
    rw [hsplit]
    refine Emits.cons hstep ?_
    have := ih (by omega) { s with txIndex := (k : Int) } htx hb rfl
    simpa using this


/-! ### Iterator position lemmas -/

theorem DBItr.prev_to (entries : List (Bytes × Bytes)) (p : Nat)
    (hp : p < entries.length) :
    DBItr.prev { entries := entries, pos := (p : Int) + 1 }
      = (true, { entries := entries, pos := (p : Int) }) := by
  have h2 : (p : Int) + 1 - 1 = (p : Int) := by omega
  simp only [DBItr.prev, h2]
  rw [if_pos (by omega : (-1 : Int) ≤ (p : Int))]
  have h3 : decide ((0 : Int) ≤ (p : Int)) = true := by simp
  have h4 : decide ((p : Int) < (entries.length : Int)) = true := by
    simp only [decide_eq_true_eq]
    exact_mod_cast hp
  simp [DBItr.valid, h3, h4, hp]

theorem DBItr.prev_done (entries : List (Bytes × Bytes)) :
    DBItr.prev { entries := entries, pos := ((0 : Nat) : Int) }
      = (false, { entries := entries, pos := -1 }) := by
  simp [DBItr.prev, DBItr.valid]

theorem DBItr.prev_stuck (entries : List (Bytes × Bytes)) :
    DBItr.prev { entries := entries, pos := -1 }
      = (false, { entries := entries, pos := -1 }) := by
  simp [DBItr.prev, DBItr.valid]

theorem DBItr.value_at (entries : List (Bytes × Bytes)) (p : Nat)
    (hp : p < entries.length) :
    DBItr.value { entries := entries, pos := (p : Int) }
      = ((entries.get? p).map Prod.snd).getD [] := by
  have h3 : (0 : Int) ≤ (p : Int) := by omega
  have h4 : (p : Int) < (entries.length : Int) := by exact_mod_cast hp
  have h5 : ((p : Int)).toNat = p := by omega
  simp [DBItr.value, DBItr.valid, h3, h4, h5]

theorem DBItr.key_at (entries : List (Bytes × Bytes)) (p : Nat)
    (hp : p < entries.length) :
    DBItr.key { entries := entries, pos := (p : Int) }
      = ((entries.get? p).map Prod.fst).getD [] := by
  have h3 : (0 : Int) ≤ (p : Int) := by omega
  have h4 : (p : Int) < (entries.length : Int) := by exact_mod_cast hp
  have h5 : ((p : Int)).toNat = p := by omega
  simp [DBItr.key, DBItr.valid, h3, h4, h5]

/-! ### Step characterisations of `historyScanner.Next` -/

theorem historyScanner.Next_done (env : Nat → Nat → Option KeyModification)
    (s : historyScanner) (hidx : s.txIndex ≤ -1)
    (it' : DBItr) (hprev : DBItr.prev s.itr = (false, it')) :
    historyScanner.Next env s = (.done, { s with itr := it' }) := by
  rw [historyScanner.Next, if_pos hidx, hprev]

theorem historyScanner.Next_load (env : Nat → Nat → Option KeyModification)
    (s : historyScanner) (hidx : s.txIndex ≤ -1)
    (it' : DBItr) (hprev : DBItr.prev s.itr = (true, it'))
    (blk : Nat) (txs : List Nat)
    (hdec : decodeNewIndex it'.value = some (blk, txs)) :
    historyScanner.Next env s
      = historyScanner.emit env
          { itr := it', currentBlock := blk, transactions := txs,
            txIndex := (txs.length : Int) - 1 } := by
  rw [historyScanner.Next, if_pos hidx, hprev]
  show (match decodeNewIndex it'.value with
    | none => (StepRes.err, { s with itr := it' })
    | some (blk, txs) =>
      historyScanner.emit env
        { itr := it', currentBlock := blk, transactions := txs,
          txIndex := (txs.length : Int) - 1 }) = _
  rw [hdec]

theorem historyScanner.Next_emit (env : Nat → Nat → Option KeyModification)
    (s : historyScanner) (hidx : 0 ≤ s.txIndex) :
    historyScanner.Next env s = historyScanner.emit env s := by
  rw [historyScanner.Next, if_neg (by omega)]

/-! ### The entry induction -/

/-- With the cursor at position `p` and no block loaded, the scanner yields
exactly the versions covered by the first `p` entries, newest first, and then
finishes cleanly. -/
theorem yields_history (env : Nat → Nat → Option KeyModification)
    (mods : Nat → KeyModification) (ns key : Bytes) (es : List IdxEntry)
    (hg : goodIndex env mods 1 es) :
    ∀ (p : Nat), p ≤ es.length →
    ∀ (s : historyScanner),
      s.itr = { entries := entriesBytes ns key es, pos := (p : Int) } →
      s.txIndex = -1 →
      Yields (historyScanner.Next env) s
        (((List.range' 1 (totalTxs (es.take p))).reverse).map mods) := by
  intro p
  induction p with
  | zero =>
    intro _ s hitr hidx
    have hl : ((List.range' 1 (totalTxs (es.take 0))).reverse).map mods = [] := by
      simp [totalTxs]
    rw [hl]
    have hstep : historyScanner.Next env s
        = (.done, { s with itr := { entries := entriesBytes ns key es, pos := -1 } }) := by
      refine historyScanner.Next_done env s (by rw [hidx]) _ ?_
      rw [hitr]
      exact DBItr.prev_done _
    exact ⟨s, _, Emits.nil s, hstep⟩
  | succ p ih =>
    intro hp s hitr hidx
    have hplen : p < es.length := by omega
    have hp' : p < (entriesBytes ns key es).length := by
      simpa [entriesBytes] using hplen
    obtain ⟨hne, hmv, hblk, htxb, henv⟩ := goodIndex_get env mods es 1 hg p hplen
    have hc : 1 ≤ (es.get ⟨p, hplen⟩).txs.length := by
      have := List.length_pos.mpr hne
      omega
    have hval : DBItr.value { entries := entriesBytes ns key es, pos := (p : Int) }
        = constructLocalIndex (es.get ⟨p, hplen⟩).blockNum (es.get ⟨p, hplen⟩).txs := by
      rw [DBItr.value_at _ p hp']
      rw [entriesBytes, List.get?_eq_getElem?, List.getElem?_map,
        ← List.get?_eq_getElem?, List.get?_eq_get hplen]
      simp [IdxEntry.kv]
    have hprev : DBItr.prev s.itr
        = (true, { entries := entriesBytes ns key es, pos := (p : Int) }) := by
      rw [hitr]
      have hcast : ((p + 1 : Nat) : Int) = (p : Int) + 1 := by omega
      rw [hcast]
      exact DBItr.prev_to _ p hp'
    have hdec : decodeNewIndex
        (DBItr.value { entries := entriesBytes ns key es, pos := (p : Int) })
        = some ((es.get ⟨p, hplen⟩).blockNum, (es.get ⟨p, hplen⟩).txs) := by
      rw [hval, decodeNewIndex]
      exact decodeLocalIndex_constructLocalIndex _ _ hblk htxb
    have hstep := historyScanner.Next_load env s (by rw [hidx]) _ hprev _ _ hdec
    -- the loaded state
    have hge : (0 : Int) ≤ ((es.get ⟨p, hplen⟩).txs.length : Int) - 1 := by
      have := hc
      omega
    have hnext2 := historyScanner.Next_emit env
      { itr := { entries := entriesBytes ns key es, pos := (p : Int) },
        currentBlock := (es.get ⟨p, hplen⟩).blockNum,
        transactions := (es.get ⟨p, hplen⟩).txs,
        txIndex := ((es.get ⟨p, hplen⟩).txs.length : Int) - 1 } hge
    have hcongr : historyScanner.Next env s
        = historyScanner.Next env
          { itr := { entries := entriesBytes ns key es, pos := (p : Int) },
            currentBlock := (es.get ⟨p, hplen⟩).blockNum,
            transactions := (es.get ⟨p, hplen⟩).txs,
            txIndex := ((es.get ⟨p, hplen⟩).txs.length : Int) - 1 } :=
      hstep.trans hnext2.symm
    have hkidx : (((es.get ⟨p, hplen⟩).txs.length : Int) - 1)
        = (((es.get ⟨p, hplen⟩).txs.length - 1 : Nat) : Int) := by omega
    have hEblock := emits_block env mods (es.get ⟨p, hplen⟩).blockNum
      (es.get ⟨p, hplen⟩).minVer (es.get ⟨p, hplen⟩).txs henv
      ((es.get ⟨p, hplen⟩).txs.length - 1) (by omega)
      { itr := { entries := entriesBytes ns key es, pos := (p : Int) },
        currentBlock := (es.get ⟨p, hplen⟩).blockNum,
        transactions := (es.get ⟨p, hplen⟩).txs,
        txIndex := ((es.get ⟨p, hplen⟩).txs.length : Int) - 1 }
      rfl rfl (by rw [hkidx])
    have hlen1 : (es.get ⟨p, hplen⟩).txs.length - 1 + 1
        = (es.get ⟨p, hplen⟩).txs.length := by omega
    rw [hlen1] at hEblock
    have hYrest := ih (by omega)
      { itr := { entries := entriesBytes ns key es, pos := (p : Int) },
        currentBlock := (es.get ⟨p, hplen⟩).blockNum,
        transactions := (es.get ⟨p, hplen⟩).txs,
        txIndex := -1 } rfl rfl
    have hY := Yields.of_emits hEblock hYrest
    have hlist : ((List.range' 1 (totalTxs (es.take (p + 1)))).reverse).map mods
        = ((List.range' (es.get ⟨p, hplen⟩).minVer (es.get ⟨p, hplen⟩).txs.length).reverse).map mods
          ++ ((List.range' 1 (totalTxs (es.take p))).reverse).map mods := by
      rw [totalTxs_take_succ es p hplen, hmv]
      have hcomm : totalTxs (es.take p) + (es.get ⟨p, hplen⟩).txs.length
          = (es.get ⟨p, hplen⟩).txs.length + totalTxs (es.take p) := by omega
      rw [hcomm, ← List.range'_append_1 1 (totalTxs (es.take p)) (es.get ⟨p, hplen⟩).txs.length,
        List.reverse_append, List.map_append]
    rw [hlist]
    exact Yields.congr_first hcongr hY

/-! ### C2: the theorem and a concrete witness -/

/-- C2: for a key whose index records writes at versions `1..N` (entries in
ascending key order, `N = totalTxs es`), repeatedly calling `Next` on the
scanner returned by `GetHistoryForKey` yields the key's modifications in
strictly descending version order `N, N-1, …, 1` and then terminates cleanly
exactly after version 1. -/
theorem getHistoryForKey_descending (env : Nat → Nat → Option KeyModification)
    (mods : Nat → KeyModification) (ns key : Bytes) (es : List IdxEntry)
    (hg : goodIndex env mods 1 es) (f : Nat) (hf : totalTxs es + 1 ≤ f) :
    runSteps (historyScanner.Next env) f (getHistoryForKey (entriesBytes ns key es))
      = (((List.range' 1 (totalTxs es)).reverse).map mods, true) := by
  by_cases hes : es = []
  · subst hes
    have hinit : getHistoryForKey (entriesBytes ns key [])
        = { itr := { entries := [], pos := -1 }, currentBlock := 0,
            transactions := [], txIndex := -1 } := rfl
    have hstep : historyScanner.Next env (getHistoryForKey (entriesBytes ns key []))
        = (.done, { getHistoryForKey (entriesBytes ns key []) with
            itr := { entries := [], pos := -1 } }) := by
      rw [hinit]
      exact historyScanner.Next_done env _ (by norm_num) _ (DBItr.prev_stuck [])
    have hY : Yields (historyScanner.Next env)
        (getHistoryForKey (entriesBytes ns key [])) [] :=
      ⟨_, _, Emits.nil _, hstep⟩
    have := runSteps_of_yields _ hY f (by simpa using hf)
    rw [this]
    simp [totalTxs]
  · have hlen0 : (entriesBytes ns key es).length = es.length := by simp [entriesBytes]
    have hlne : ¬ (entriesBytes ns key es).length = 0 := by
      rw [hlen0]
      simpa using hes
    have hinit : getHistoryForKey (entriesBytes ns key es)
        = { itr := { entries := entriesBytes ns key es, pos := (es.length : Int) },
            currentBlock := 0, transactions := [], txIndex := -1 } := by
      rw [getHistoryForKey]
      simp only [DBItr.last, hlne, if_false, if_true, DBItr.next, DBItr.valid]
      have ha : ((entriesBytes ns key es).length : Int) - 1 + 1
          = ((es.length : Nat) : Int) := by
        rw [hlen0]
        omega
      have hc : ((entriesBytes ns key es).length : Int) - 1 + 1
          ≤ ((entriesBytes ns key es).length : Int) := by omega
      simp only [if_pos hc, ha]
      have hcond : ((es.length : Nat) : Int) ≤ ((entriesBytes ns key es).length : Int) := by
        rw [hlen0]
      simp [hcond]
    have hY := yields_history env mods ns key es hg es.length (le_refl _)
      { itr := { entries := entriesBytes ns key es, pos := (es.length : Int) },
        currentBlock := 0, transactions := [], txIndex := -1 } rfl rfl
    rw [List.take_length] at hY
    rw [hinit]
    exact runSteps_of_yields _ hY f (by simpa using hf)

/-- Concrete data for the history-scanner witnesses: versions 1 and 2 live
in block 10 (transactions 0 and 2), version 3 in block 12 (transaction 1). -/
def esW : List IdxEntry :=
  [{ minVer := 1, blockNum := 10, txs := [0, 2] },
   { minVer := 3, blockNum := 12, txs := [1] }]

def modsW : Nat → KeyModification := fun v =>
  { txId := [118, v], value := [v], timestamp := v, isDelete := false }

def envW : Nat → Nat → Option KeyModification := fun b t =>
  if b = 10 ∧ t = 0 then some (modsW 1)
  else if b = 10 ∧ t = 2 then some (modsW 2)
  else if b = 12 ∧ t = 1 then some (modsW 3)
  else none

theorem goodIndex_esW : goodIndex envW modsW 1 esW := by
  show goodIndex envW modsW 1
    [{ minVer := 1, blockNum := 10, txs := [0, 2] },
     { minVer := 3, blockNum := 12, txs := [1] }]
  unfold goodIndex
  exact ⟨by decide, by decide, by decide, by decide, by decide,
    by decide, by decide, by decide, by decide, by decide, trivial⟩

/-- Witness for C2 at the concrete three-version index. -/
theorem getHistoryForKey_descending_witness :
    runSteps (historyScanner.Next envW) 4 (getHistoryForKey (entriesBytes [110] [107] esW))
      = (((List.range' 1 (totalTxs esW)).reverse).map modsW, true) :=
  getHistoryForKey_descending envW modsW [110] [107] esW goodIndex_esW 4 (by decide)

/-! ## Multi-key history scanner (part_002 `multipleHistoryScanner`)

`GetHistoryForKeys` opens one `historyScanner` per requested key and stores
them in a Go map keyed by the key string; `multipleHistoryScanner.Next`
drains the scanner of `keys[currentKeyIndex]` and, when it reports end of
iteration, advances to the next key inside the same call.  The map is an
association list with one binding per distinct key (`mapInsert` overwrites),
so a repeated key shares a single scanner.  The advance loop is written with
the remaining key-list suffix (`keys.drop (currentKeyIndex + 1)`) as the
structural recursion argument; it mirrors the Go loop's bound check
`currentKeyIndex >= len(keys)`. -/

def mapInsert (m : List (Bytes × historyScanner)) (k : Bytes) (s : historyScanner) :
    List (Bytes × historyScanner) :=
  if (m.find? (fun e => decide (e.1 = k))).isSome then
    m.map (fun e => if e.1 = k then (k, s) else e)
  else m ++ [(k, s)]

def mLookup (m : List (Bytes × historyScanner)) (k : Bytes) : Option historyScanner :=
  (m.find? (fun e => decide (e.1 = k))).map Prod.snd

def mUpdate (m : List (Bytes × historyScanner)) (k : Bytes) (s : historyScanner) :
    List (Bytes × historyScanner) :=
  m.map (fun e => if e.1 = k then (k, s) else e)

structure multipleHistoryScanner where
  keys : List Bytes
  scanners : List (Bytes × historyScanner)
  currentKeyIndex : Nat
deriving DecidableEq

/-- `QueryExecutor.GetHistoryForKeys` (part_002 lines 108-123): one scanner
per key via `GetHistoryForKey` (`entsF k` gives key `k`'s range contents). -/
def getHistoryForKeys (entsF : Bytes → List (Bytes × Bytes)) (keyList : List Bytes) :
    multipleHistoryScanner :=
  { keys := keyList
    scanners := keyList.foldl (fun m k => mapInsert m k (getHistoryForKey (entsF k))) []
    currentKeyIndex := 0 }

/-- The `for queryResult == nil` loop of `multipleHistoryScanner.Next`
(part_002 lines 141-153): `currentKeyIndex` was just incremented; check the
bound, then drain the next key's scanner.  The first argument is the
remaining key suffix `keys.drop currentKeyIndex`, used as the structural
recursion measure; `[]` is exactly the Go bound check firing. -/
def mAdvanceAux (env : Bytes → Nat → Nat → Option KeyModification) :
    List Bytes → multipleHistoryScanner → StepRes × multipleHistoryScanner
  | [], m => (.done, m)
  | _ :: rem, m =>
    match m.keys.get? m.currentKeyIndex with
    | none => (.fault, m)
    | some key =>
      match mLookup m.scanners key with
      | none => (.fault, m)
      | some s =>
        match historyScanner.Next (env key) s with
        | (.res r, s') => (.res r, { m with scanners := mUpdate m.scanners key s' })
        | (.done, s') =>
          mAdvanceAux env rem
            { m with scanners := mUpdate m.scanners key s',
                     currentKeyIndex := m.currentKeyIndex + 1 }
        | (.err, s') => (.err, { m with scanners := mUpdate m.scanners key s' })
        | (.fault, s') => (.fault, { m with scanners := mUpdate m.scanners key s' })

/-- `multipleHistoryScanner.Next` (part_002 lines 133-159).  The first access
`keys[currentKeyIndex]` is unguarded in Go (a panic when out of range);
afterwards each exhausted scanner hands over to the advance loop. -/
def multipleHistoryScanner.Next (env : Bytes → Nat → Nat → Option KeyModification)
    (m : multipleHistoryScanner) : StepRes × multipleHistoryScanner :=
  match m.keys.get? m.currentKeyIndex with
  | none => (.fault, m)
  | some key =>
    match mLookup m.scanners key with
    | none => (.fault, m)
    | some s =>
      match historyScanner.Next (env key) s with
      | (.res r, s') => (.res r, { m with scanners := mUpdate m.scanners key s' })
      | (.done, s') =>
        mAdvanceAux env (m.keys.drop (m.currentKeyIndex + 1))
          { m with scanners := mUpdate m.scanners key s',
                   currentKeyIndex := m.currentKeyIndex + 1 }
      | (.err, s') => (.err, { m with scanners := mUpdate m.scanners key s' })
      | (.fault, s') => (.fault, { m with scanners := mUpdate m.scanners key s' })

/-! ### Map lemmas -/

theorem mLookup_update_same (m : List (Bytes × historyScanner)) (k : Bytes)
    (s : historyScanner) (h : (mLookup m k).isSome) :
    mLookup (mUpdate m k s) k = some s := by
  induction m with
  | nil => simp [mLookup] at h
  | cons e t ih =>
    by_cases he : e.1 = k
    · simp [mLookup, mUpdate, List.find?_cons, he]
    · have hh : (mLookup t k).isSome := by
        rw [mLookup, List.find?_cons] at h
        have hd : decide (e.1 = k) = false := by simp [he]
        rw [hd] at h
        exact h
      simp only [mUpdate, List.map_cons, if_neg he]
      rw [mLookup, List.find?_cons]
      have hd : decide (e.1 = k) = false := by simp [he]
      rw [hd]
      exact ih hh

theorem mLookup_update_ne (m : List (Bytes × historyScanner)) (k k' : Bytes)
    (s : historyScanner) (hne : k' ≠ k) :
    mLookup (mUpdate m k s) k' = mLookup m k' := by
  induction m with
  | nil => rfl
  | cons e t ih =>
    simp only [mUpdate, List.map_cons] at *
    rw [mLookup, mLookup, List.find?_cons, List.find?_cons]
    by_cases he : e.1 = k
    · have h1 : decide ((if e.1 = k then (k, s) else e).1 = k') = false := by
        simp [he, Ne.symm hne]
      have h2 : decide (e.1 = k') = false := by
        simp [he, Ne.symm hne]
      rw [h1, h2]
      exact ih
    · have h1 : (if e.1 = k then (k, s) else e) = e := if_neg he
      rw [h1]
      by_cases he' : e.1 = k'
      · simp [he']
      · have h2 : decide (e.1 = k') = false := by simp [he']
        rw [h2]
        exact ih

theorem mLookup_insert_same (m : List (Bytes × historyScanner)) (k : Bytes)
    (s : historyScanner) : mLookup (mapInsert m k s) k = some s := by
  rw [mapInsert]
  by_cases h : (m.find? (fun e => decide (e.1 = k))).isSome
  · rw [if_pos h]
    exact mLookup_update_same m k s (by simpa [mLookup] using h)
  · rw [if_neg h]
    rw [mLookup, List.find?_append]
    rw [Option.not_isSome_iff_eq_none] at h
    rw [h]
    simp

theorem mLookup_insert_ne (m : List (Bytes × historyScanner)) (k k' : Bytes)
    (s : historyScanner) (hne : k' ≠ k) :
    mLookup (mapInsert m k s) k' = mLookup m k' := by
  rw [mapInsert]
  by_cases h : (m.find? (fun e => decide (e.1 = k))).isSome
  · rw [if_pos h]
    exact mLookup_update_ne m k k' s hne
  · rw [if_neg h]
    rw [mLookup, List.find?_append, mLookup]
    have h3 : [(k, s)].find? (fun e => decide (e.1 = k')) = none := by
      simp [Ne.symm hne]
    rw [h3]
    simp

theorem mLookup_foldl_not_mem (entsF : Bytes → List (Bytes × Bytes))
    (ks : List Bytes) (m₀ : List (Bytes × historyScanner)) (k : Bytes)
    (hk : k ∉ ks) :
    mLookup (ks.foldl (fun m k => mapInsert m k (getHistoryForKey (entsF k))) m₀) k
      = mLookup m₀ k := by
  induction ks generalizing m₀ with
  | nil => rfl
  | cons a t ih =>
    rw [List.foldl_cons]
    have hka : k ≠ a := by
      intro hh
      exact hk (by simp [hh])
    rw [ih _ (by intro hh; exact hk (by simp [hh]))]
    exact mLookup_insert_ne m₀ a k _ hka

theorem mLookup_build (entsF : Bytes → List (Bytes × Bytes)) (keyList : List Bytes)
    (hnd : keyList.Nodup) (k : Bytes) (hk : k ∈ keyList) :
    ∀ m₀, mLookup (keyList.foldl (fun m k => mapInsert m k (getHistoryForKey (entsF k))) m₀) k
      = some (getHistoryForKey (entsF k)) := by
  induction keyList with
  | nil => simp at hk
  | cons a t ih =>
    intro m₀
    rw [List.foldl_cons]
    rcases List.mem_cons.mp hk with rfl | hmem
    · have hnott : k ∉ t := (List.nodup_cons.mp hnd).1
      rw [mLookup_foldl_not_mem entsF t _ k hnott]
      exact mLookup_insert_same m₀ k _
    · exact ih (List.nodup_cons.mp hnd).2 hmem _

/-! ### Run of the multi-key scanner -/

/-- Helper: a clean per-key yield for `GetHistoryForKey`, independent of the
C2 theorem (used to instantiate multi-key hypotheses). -/
theorem yields_getHistoryForKey (env : Nat → Nat → Option KeyModification)
    (mods : Nat → KeyModification) (ns key : Bytes) (es : List IdxEntry)
    (hg : goodIndex env mods 1 es) :
    Yields (historyScanner.Next env) (getHistoryForKey (entriesBytes ns key es))
      (((List.range' 1 (totalTxs es)).reverse).map mods) := by
  by_cases hes : es = []
  · subst hes
    have hinit : getHistoryForKey (entriesBytes ns key [])
        = { itr := { entries := [], pos := -1 }, currentBlock := 0,
            transactions := [], txIndex := -1 } := rfl
    have hstep : historyScanner.Next env (getHistoryForKey (entriesBytes ns key []))
        = (.done, { getHistoryForKey (entriesBytes ns key []) with
            itr := { entries := [], pos := -1 } }) := by
      rw [hinit]
      exact historyScanner.Next_done env _ (by norm_num) _ (DBItr.prev_stuck [])
    have hl : ((List.range' 1 (totalTxs ([] : List IdxEntry))).reverse).map mods = [] := by
      simp [totalTxs]
    rw [hl]
    exact ⟨_, _, Emits.nil _, hstep⟩
  · have hlen0 : (entriesBytes ns key es).length = es.length := by simp [entriesBytes]
    have hlne : ¬ (entriesBytes ns key es).length = 0 := by
      rw [hlen0]
      simpa using hes
    have hinit : getHistoryForKey (entriesBytes ns key es)
        = { itr := { entries := entriesBytes ns key es, pos := (es.length : Int) },
            currentBlock := 0, transactions := [], txIndex := -1 } := by
      rw [getHistoryForKey]
      simp only [DBItr.last, hlne, if_false, if_true, DBItr.next, DBItr.valid]
      have ha : ((entriesBytes ns key es).length : Int) - 1 + 1
          = ((es.length : Nat) : Int) := by
        rw [hlen0]
        omega
      have hc : ((entriesBytes ns key es).length : Int) - 1 + 1
          ≤ ((entriesBytes ns key es).length : Int) := by omega
      simp only [if_pos hc, ha]
      have hcond : ((es.length : Nat) : Int) ≤ ((entriesBytes ns key es).length : Int) := by
        rw [hlen0]
      simp [hcond]
    have hY := yields_history env mods ns key es hg es.length (le_refl _)
      { itr := { entries := entriesBytes ns key es, pos := (es.length : Int) },
        currentBlock := 0, transactions := [], txIndex := -1 } rfl rfl
    rw [List.take_length] at hY
    rw [hinit]
    exact hY

/-- The outcome classification used to thread an advance loop through a
run: the pair returned by a step either closes the iteration now, or yields
one result and continues as a clean run. -/
def ResYields {σ : Type} (step : σ → StepRes × σ)
    (res : StepRes × σ) (out : List KeyModification) : Prop :=
  (out = [] ∧ res.1 = .done) ∨
  (∃ m₀ out', out = m₀ :: out' ∧ res.1 = .res m₀ ∧ Yields step res.2 out')

theorem yields_of_resYields {σ : Type} (step : σ → StepRes × σ)
    (m : σ) (out : List KeyModification)
    (h : ResYields step (step m) out) : Yields step m out := by
  rcases h with ⟨rfl, hdone⟩ | ⟨m₀, out', rfl, hres, hY⟩
  · refine ⟨m, (step m).2, Emits.nil m, ?_⟩
    have he : step m = ((step m).1, (step m).2) := rfl
    rw [he, hdone]
  · obtain ⟨s₁, s₂, hE, hD⟩ := hY
    refine ⟨s₁, s₂, Emits.cons ?_ hE, hD⟩
    have he : step m = ((step m).1, (step m).2) := rfl
    rw [he, hres]

theorem get?_of_drop_cons {α' : Type} {l : List α'} {n : Nat} {a : α'} {rest : List α'}
    (h : l.drop n = a :: rest) : l.get? n = some a := by
  have hn : n < l.length := by
    by_contra hc
    push_neg at hc
    rw [List.drop_eq_nil_of_le hc] at h
    exact absurd h (by simp)
  rw [List.get?_eq_get hn]
  have hd := List.drop_eq_getElem_cons hn
  rw [hd] at h
  have h1 : l[n] = a := (List.cons_eq_cons.mp h).1
  rw [← h1]
  simp

/-- In-sync unfolding: when the remaining suffix really is
`keys.drop currentKeyIndex` and is non-empty, an entry into the advance loop
behaves exactly like `Next`. -/
theorem next_eq_advance (env : Bytes → Nat → Nat → Option KeyModification)
    (m : multipleHistoryScanner) (k : Bytes) (rest : List Bytes)
    (hdrop : m.keys.drop m.currentKeyIndex = k :: rest) :
    multipleHistoryScanner.Next env m = mAdvanceAux env (k :: rest) m := by
  have hrest : m.keys.drop (m.currentKeyIndex + 1) = rest := by
    rw [← List.tail_drop, hdrop]
    rfl
  simp only [multipleHistoryScanner.Next, mAdvanceAux, hrest]

/-- The main induction: when the remaining keys each hold a scanner that
yields its own output list, the advance loop produces their concatenation. -/
theorem multi_yields (env : Bytes → Nat → Nat → Option KeyModification)
    (outF : Bytes → List KeyModification) :
    ∀ (ks : List Bytes) (m : multipleHistoryScanner),
      m.keys.drop m.currentKeyIndex = ks → ks.Nodup →
      (∀ k ∈ ks, ∃ s, mLookup m.scanners k = some s ∧
        Yields (historyScanner.Next (env k)) s (outF k)) →
      ResYields (multipleHistoryScanner.Next env) (mAdvanceAux env ks m) ((ks.map outF).flatten) := by
  intro ks
  induction ks with
  | nil =>
    intro m _ _ _
    exact Or.inl ⟨by simp, rfl⟩
  | cons k rest ih =>
    intro m hdrop hnd hbind
    obtain ⟨s₀, hlk₀, hY₀⟩ := hbind k (by simp)
    have hknr : k ∉ rest := (List.nodup_cons.mp hnd).1
    have hndr : rest.Nodup := (List.nodup_cons.mp hnd).2
    -- inner induction over the head key's output
    have INNER : ∀ (outk : List KeyModification) (m' : multipleHistoryScanner)
        (s_k : historyScanner),
        m'.keys = m.keys → m'.currentKeyIndex = m.currentKeyIndex →
        mLookup m'.scanners k = some s_k →
        (∀ k' ∈ rest, ∃ s, mLookup m'.scanners k' = some s ∧
          Yields (historyScanner.Next (env k')) s (outF k')) →
        Yields (historyScanner.Next (env k)) s_k outk →
        ResYields (multipleHistoryScanner.Next env) (mAdvanceAux env (k :: rest) m')
          (outk ++ (rest.map outF).flatten) := by
      intro outk
      induction outk with
      | nil =>
        intro m' s_k hkeys hidx hlk hbind' hYk
        obtain ⟨t₁, t₂, hE, hD⟩ := hYk
        cases hE with
        | nil =>
          -- the scanner is already exhausted: advance to the rest
          have hget : m'.keys.get? m'.currentKeyIndex = some k := by
            rw [hkeys, hidx]
            exact get?_of_drop_cons hdrop
          have hstep : mAdvanceAux env (k :: rest) m'
              = mAdvanceAux env rest
                  { m' with scanners := mUpdate m'.scanners k t₂,
                            currentKeyIndex := m'.currentKeyIndex + 1 } := by
            simp only [mAdvanceAux, hget, hlk, hD]
          rw [hstep]
          simp only [List.nil_append]
          refine ih _ ?_ hndr ?_
          · show m'.keys.drop (m'.currentKeyIndex + 1) = rest
            rw [hkeys, hidx, ← List.tail_drop, hdrop]
            rfl
          · intro k' hk'
            obtain ⟨s', hlk', hY'⟩ := hbind' k' hk'
            refine ⟨s', ?_, hY'⟩
            show mLookup (mUpdate m'.scanners k t₂) k' = some s'
            rw [mLookup_update_ne _ _ _ _ (by intro hh; exact hknr (hh ▸ hk'))]
            exact hlk'
      | cons m₀ out' ihout =>
        intro m' s_k hkeys hidx hlk hbind' hYk
        obtain ⟨t₁, t₂, hE, hD⟩ := hYk
        cases hE with
        | cons hstep₀ hE' =>
          rename_i s₁
          have hget : m'.keys.get? m'.currentKeyIndex = some k := by
            rw [hkeys, hidx]
            exact get?_of_drop_cons hdrop
          have hstep : mAdvanceAux env (k :: rest) m'
              = (.res m₀, { m' with scanners := mUpdate m'.scanners k s₁ }) := by
            simp only [mAdvanceAux, hget, hlk, hstep₀]
          rw [hstep]
          refine Or.inr ⟨m₀, out' ++ (rest.map outF).flatten, by simp, rfl, ?_⟩
          -- the continuation: same key, updated scanner state
          have hlk₁ : mLookup (mUpdate m'.scanners k s₁) k = some s₁ :=
            mLookup_update_same _ _ _ (by rw [hlk]; rfl)
          have hdrop₁ : m'.keys.drop m'.currentKeyIndex = k :: rest := by
            rw [hkeys, hidx]
            exact hdrop
          refine yields_of_resYields _ _ _ ?_
          rw [show multipleHistoryScanner.Next env
                { m' with scanners := mUpdate m'.scanners k s₁ }
              = mAdvanceAux env (k :: rest)
                { m' with scanners := mUpdate m'.scanners k s₁ } from
            next_eq_advance env _ k rest hdrop₁]
          refine ihout { m' with scanners := mUpdate m'.scanners k s₁ } s₁
            hkeys hidx hlk₁ ?_ ⟨t₁, t₂, hE', hD⟩
          intro k' hk'
          obtain ⟨s', hlk', hY'⟩ := hbind' k' hk'
          refine ⟨s', ?_, hY'⟩
          show mLookup (mUpdate m'.scanners k s₁) k' = some s'
          rw [mLookup_update_ne _ _ _ _ (by intro hh; exact hknr (hh ▸ hk'))]
          exact hlk'
    have hbr : ∀ k' ∈ rest, ∃ s, mLookup m.scanners k' = some s ∧
        Yields (historyScanner.Next (env k')) s (outF k') := by
      intro k' hk'
      exact hbind k' (by simp [hk'])
    have hmain := INNER (outF k) m s₀ rfl rfl hlk₀ hbr hY₀
    simpa using hmain

/-! ### C4: counterexample, amended statement, witness -/

def envKW : Bytes → Nat → Nat → Option KeyModification := fun _ => envW

def entsKW : Bytes → List (Bytes × Bytes) := fun _ => entriesBytes [110] [107] esW

/-- Counterexample for C4 as frozen: with the duplicated key list
`[[107], [107]]` the Go map holds a single shared scanner, so the run yields
key `[107]`'s history once — not once per occurrence as the claim's
"complete history of keys[0], then the complete history of keys[1]"
requires. -/
theorem getHistoryForKeys_duplicate_counterexample :
    runSteps (multipleHistoryScanner.Next envKW) 7
        (getHistoryForKeys entsKW [[107], [107]])
      = ([modsW 3, modsW 2, modsW 1], true) ∧
    ([modsW 3, modsW 2, modsW 1] : List KeyModification)
      ≠ [modsW 3, modsW 2, modsW 1] ++ [modsW 3, modsW 2, modsW 1] := by
  constructor
  · decide
  · decide

/-- C4 (amended: for pairwise-distinct keys): `GetHistoryForKeys` yields the
complete history of `keys[0]`, then of `keys[1]`, and so on in request
order — a plain per-key concatenation, never interleaved across keys. -/
theorem getHistoryForKeys_concat (env : Bytes → Nat → Nat → Option KeyModification)
    (entsF : Bytes → List (Bytes × Bytes)) (outF : Bytes → List KeyModification)
    (keyList : List Bytes) (hne : keyList ≠ []) (hnd : keyList.Nodup)
    (hY : ∀ k ∈ keyList,
      Yields (historyScanner.Next (env k)) (getHistoryForKey (entsF k)) (outF k))
    (f : Nat) (hf : ((keyList.map outF).flatten).length + 1 ≤ f) :
    runSteps (multipleHistoryScanner.Next env) f (getHistoryForKeys entsF keyList)
      = ((keyList.map outF).flatten, true) := by
  obtain ⟨k, rest, rfl⟩ := List.exists_cons_of_ne_nil hne
  have hdrop : (getHistoryForKeys entsF (k :: rest)).keys.drop
      (getHistoryForKeys entsF (k :: rest)).currentKeyIndex = k :: rest := rfl
  have hbind : ∀ k' ∈ (k :: rest),
      ∃ s, mLookup (getHistoryForKeys entsF (k :: rest)).scanners k' = some s ∧
        Yields (historyScanner.Next (env k')) s (outF k') := by
    intro k' hk'
    refine ⟨getHistoryForKey (entsF k'), ?_, hY k' hk'⟩
    exact mLookup_build entsF (k :: rest) hnd k' hk' []
  have hres := multi_yields env outF (k :: rest) _ hdrop hnd hbind
  have hYield : Yields (multipleHistoryScanner.Next env)
      (getHistoryForKeys entsF (k :: rest)) (((k :: rest).map outF).flatten) := by
    refine yields_of_resYields _ _ _ ?_
    rw [next_eq_advance env _ k rest hdrop]
    exact hres
  exact runSteps_of_yields _ hYield f hf

/-- A second key's concrete data for the C4 witness: key `[108]` has one
version in block 20, transaction 0. -/
def esB : List IdxEntry := [{ minVer := 1, blockNum := 20, txs := [0] }]

def modsB : Nat → KeyModification := fun v =>
  { txId := [98, v], value := [v + 40], timestamp := v, isDelete := false }

def envB : Nat → Nat → Option KeyModification := fun b t =>
  if b = 20 ∧ t = 0 then some (modsB 1) else none

theorem goodIndex_esB : goodIndex envB modsB 1 esB := by
  show goodIndex envB modsB 1 [{ minVer := 1, blockNum := 20, txs := [0] }]
  unfold goodIndex
  exact ⟨by decide, by decide, by decide, by decide, by decide, trivial⟩

def envF2 : Bytes → Nat → Nat → Option KeyModification := fun k =>
  if k = [107] then envW else envB

def entsF2 : Bytes → List (Bytes × Bytes) := fun k =>
  if k = [107] then entriesBytes [110] [107] esW else entriesBytes [110] [108] esB

def outF2 : Bytes → List KeyModification := fun k =>
  if k = [107] then ((List.range' 1 (totalTxs esW)).reverse).map modsW
  else ((List.range' 1 (totalTxs esB)).reverse).map modsB

/-- Witness for C4's amended claim at two concrete keys. -/
theorem getHistoryForKeys_concat_witness :
    runSteps (multipleHistoryScanner.Next envF2) 6
        (getHistoryForKeys entsF2 [[107], [108]])
      = ((([[107], [108]] : List Bytes).map outF2).flatten, true) := by
  refine getHistoryForKeys_concat envF2 entsF2 outF2 [[107], [108]]
    (by decide) (by decide) ?_ 6 (by decide)
  intro k hk
  rcases List.mem_cons.mp hk with rfl | hk'
  · show Yields (historyScanner.Next (envF2 [107]))
      (getHistoryForKey (entsF2 [107])) (outF2 [107])
    have h1 : envF2 [107] = envW := rfl
    have h2 : entsF2 [107] = entriesBytes [110] [107] esW := rfl
    have h3 : outF2 [107] = ((List.range' 1 (totalTxs esW)).reverse).map modsW := rfl
    rw [h1, h2, h3]
    exact yields_getHistoryForKey envW modsW [110] [107] esW goodIndex_esW
  · have hk8 : k = [108] := by simpa using hk'
    subst hk8
    show Yields (historyScanner.Next (envF2 [108]))
      (getHistoryForKey (entsF2 [108])) (outF2 [108])
    have h1 : envF2 [108] = envB := by
      rw [envF2]
      simp
    have h2 : entsF2 [108] = entriesBytes [110] [108] esB := by
      rw [entsF2]
      simp
    have h3 : outF2 [108] = ((List.range' 1 (totalTxs esB)).reverse).map modsB := by
      rw [outF2]
      simp
    rw [h1, h2, h3]
    exact yields_getHistoryForKey envB modsB [110] [108] esB goodIndex_esB

/-! ## `GetHistoryForKeys` of `query_executer.go` (the parallel variant)

That variant declares `var dbItrs map[string]iterator.Iterator` without
`make` and then assigns `dbItrs[key] = dbItr` inside the per-key loop
(`query_executer.go` lines 119-149): in Go, assigning into a nil map is a
runtime panic.  Before the assignment the loop body can only exit early with
an error return: `GetIterator` can fail (`itrF k` models its outcome), and
when `dbItr.Last()` holds an entry, `decodeNewIndex` of its value can fail.
The `nextBlock`/`keysInBlock` bookkeeping is pure local arithmetic with no
exit path and is elided.  The map is modelled as `Option` (nil vs. made)
holding the assigned keys. -/

inductive GoOutcome where
  | ok
  | errReturn
  | nilMapPanic
deriving DecidableEq

/-- The `if dbItr.Last()` body's only exit path: decoding the last entry's
value fails. -/
def lastDecodeFails (entries : List (Bytes × Bytes)) : Bool :=
  match entries.getLast? with
  | some e => (decodeNewIndex e.2).isNone
  | none => false

def ghfkLoopQE (itrF : Bytes → Except Unit (List (Bytes × Bytes))) :
    Option (List Bytes) → List Bytes → GoOutcome
  | _, [] => .ok
  | dbItrs, key :: rest =>
    match itrF key with
    | .error _ => .errReturn
    | .ok entries =>
      if lastDecodeFails entries then .errReturn
      else
        match dbItrs with
        | none => .nilMapPanic
        | some m => ghfkLoopQE itrF (some (key :: m)) rest

def getHistoryForKeysQE (itrF : Bytes → Except Unit (List (Bytes × Bytes)))
    (keyList : List Bytes) : GoOutcome :=
  ghfkLoopQE itrF none keyList

/-! ### C10: the nil-map assignment faults on every non-empty key list -/

/-- C10: for every non-empty key list, the `query_executer.go`
`GetHistoryForKeys` never returns a scanner; whenever the first key's
iterator setup succeeds, the very first map assignment faults with a
nil-map panic. -/
theorem getHistoryForKeysQE_nil_map (itrF : Bytes → Except Unit (List (Bytes × Bytes)))
    (k : Bytes) (ks : List Bytes) :
    getHistoryForKeysQE itrF (k :: ks) ≠ .ok ∧
    (∀ entries, itrF k = .ok entries → lastDecodeFails entries = false →
      getHistoryForKeysQE itrF (k :: ks) = .nilMapPanic) := by
  constructor
  · rw [getHistoryForKeysQE, ghfkLoopQE]
    match hit : itrF k with
    | .error e => simp
    | .ok entries =>
      by_cases hl : lastDecodeFails entries
      · simp [hl]
      · simp [hl]
  · intro entries hit hl
    rw [getHistoryForKeysQE]
    simp [ghfkLoopQE, hit, hl]

/-- Witness for C10 at a one-key list with a succeeding empty iterator. -/
theorem getHistoryForKeysQE_nil_map_witness :
    getHistoryForKeysQE (fun _ => Except.ok []) [[107]] = GoOutcome.nilMapPanic :=
  (getHistoryForKeysQE_nil_map (fun _ => Except.ok []) [107] []).2 [] rfl rfl

/-! ## `GetVersionsForKey` and the version scanner (part_002)

The ordered store is modelled as a byte-sorted association list; `Get` is a
point lookup and `GetIterator s e` returns the entries whose key lies in
`[s, e)` in store order. -/

/-- Lexicographic byte-string comparison (`bytes.Compare(a, b) < 0`). -/
def bytesLt : Bytes → Bytes → Bool
  | [], [] => false
  | [], _ :: _ => true
  | _ :: _, [] => false
  | a :: as, b :: bs => if a < b then true else if b < a then false else bytesLt as bs

def dbGet (db : List (Bytes × Bytes)) (k : Bytes) : Option Bytes :=
  (db.find? (fun e => decide (e.1 = k))).map Prod.snd

def getIterator (db : List (Bytes × Bytes)) (s e : Bytes) : List (Bytes × Bytes) :=
  db.filter (fun p => !bytesLt p.1 s && bytesLt p.1 e)

structure versionScanner where
  rs : rangeScan
  itr : DBItr
  currentBlock : Nat
  transactions : List Nat
  txIndex : Int
  startV : Nat
  endV : Nat
deriving DecidableEq

/-- `QueryExecutor.GetVersionsForKey` (part_002 lines 234-288): validate
`start ≤ end`; read the GlobalIndex entry stored under `"_" + key` and, when
present, reject `start` beyond the decoded last version; then open the range
iterator over `[rangeScan.startKey, rangeScan.startKey ++ encode(end+1))`,
and if it holds an entry, position at the last one and pre-compute the
starting offset from its decoded minimum version.  Go's `uint64` arithmetic
`len(transactions)-1` / `end - firstVersionInBlock` is reproduced with
truncated `Nat` subtraction (both are reachable only after the preceding
decodes succeed). -/
def getVersionsForKey (db : List (Bytes × Bytes))
    (ns key : Bytes) (startV endV : Nat) : Except Unit versionScanner :=
  if endV < startV then .error () else
  let GIkey : Bytes := 95 :: key
  let check : Except Unit Unit :=
    match dbGet db GIkey with
    | some versionsBytes =>
      match decodeOrderPreservingVarUint64 versionsBytes with
      | none => .error ()
      | some (maxVersion, _) =>
        if maxVersion < startV then .error () else .ok ()
    | none => .ok ()
  match check with
  | .error _ => .error ()
  | .ok _ =>
    let rs := constructRangeScan ns key
    let endKey := rs.startKey ++ encodeOrderPreservingVarUint64 (endV + 1)
    let entries := getIterator db rs.startKey endKey
    let r := DBItr.last { entries := entries, pos := -1 }
    if r.1 then
      match rs.decodeMinVersion r.2.key with
      | none => .error ()
      | some firstVersionInBlock =>
        match decodeNewIndex r.2.value with
        | none => .error ()
        | some (blk, txs) =>
          let lastVersionInBlock := firstVersionInBlock + (txs.length - 1)
          let txI : Int := if lastVersionInBlock < endV then (txs.length : Int) - 1
                           else ((endV - firstVersionInBlock : Nat) : Int)
          .ok { rs := rs, itr := r.2, currentBlock := blk, transactions := txs,
                txIndex := txI, startV := startV, endV := endV }
    else
      .ok { rs := rs, itr := r.2, currentBlock := 0, transactions := [],
            txIndex := -1, startV := startV, endV := endV }

/-- The tail of `versionScanner.Next` (part_002 lines 308-346): decode the
minimum version of the current index entry from the iterator's key, stop
cleanly when the version at `txIndex` falls below `start`, otherwise emit
the transaction at `txIndex`.  `uint64(txIndex)` is modelled as `toNat`
(`txIndex ≥ 0` in every reachable emit). -/
def versionScanner.emit (env : Nat → Nat → Option KeyModification)
    (s : versionScanner) : StepRes × versionScanner :=
  match s.rs.decodeMinVersion s.itr.key with
  | none => (.err, s)
  | some firstVersionInBlock =>
    if firstVersionInBlock + s.txIndex.toNat < s.startV then (.done, s)
    else if 0 ≤ s.txIndex then
      match s.transactions.get? s.txIndex.toNat with
      | none => (.fault, s)
      | some tranNum =>
        let s' := { s with txIndex := s.txIndex - 1 }
        match env s.currentBlock tranNum with
        | none => (.err, s')
        | some m => (.res m, s')
    else (.fault, s)

/-- `versionScanner.Next` (part_002 lines 290-346). -/
def versionScanner.Next (env : Nat → Nat → Option KeyModification)
    (s : versionScanner) : StepRes × versionScanner :=
  if s.txIndex ≤ -1 then
    match DBItr.prev s.itr with
    | (false, it') => (.done, { s with itr := it' })
    | (true, it') =>
      match decodeNewIndex it'.value with
      | none => (.err, { s with itr := it' })
      | some (blk, txs) =>
        versionScanner.emit env
          { s with itr := it', currentBlock := blk, transactions := txs,
                   txIndex := (txs.length : Int) - 1 }
  else versionScanner.emit env s

/-! ### C3: the bounded-version query fails on the code -/

/-- The concrete history database of the spec's bounded-range example: key
`"k"` in namespace `"n"` with versions 1..3 in blocks [10, 10, 12], plus the
GlobalIndex entry recording last version 3 under `"_k"`. -/
def dbC3 : List (Bytes × Bytes) :=
  [([95, 107], encodeOrderPreservingVarUint64 3),
   (constructDataKey [110] [107] 1, constructLocalIndex 10 [0, 1]),
   (constructDataKey [110] [107] 3, constructLocalIndex 12 [0])]

/-- C3 fails on the code: on the spec's own example index (versions [1,2,3])
the query `getVersionsForKey(ns, key, 2, 3)` returns a decoding error
instead of yielding versions 3 then 2 — the range scan's `startKey` wrongly
ends in `encode(1)`, so the range `[startKey, startKey ++ encode(end+1))`
contains only the minVersion-1 entry, and `decodeMinVersion` of that entry's
own key trims the whole key away and fails on the empty remainder. -/
theorem getVersionsForKey_errors_on_spec_example :
    getVersionsForKey dbC3 [110] [107] 2 3 = .error () := by rfl

/-! ### C7: InvalidRange rejection -/

/-- C7: `GetVersionsForKey` fails (returning an error and no scanner)
whenever the caller supplies `start > end`, or the GlobalIndex entry stored
under `"_" + key` records a last known version below `start`.  Both checks
sit before the range iterator is opened. -/
theorem getVersionsForKey_invalid_range (db : List (Bytes × Bytes)) (ns key : Bytes)
    (startV endV maxV : Nat)
    (h : endV < startV ∨
      (dbGet db (95 :: key) = some (encodeOrderPreservingVarUint64 maxV) ∧
        maxV < 2 ^ 64 ∧ maxV < startV)) :
    getVersionsForKey db ns key startV endV = .error () := by
  rcases h with h1 | ⟨hgi, hmx, hlt⟩
  · rw [getVersionsForKey, if_pos h1]
  · rw [getVersionsForKey]
    by_cases h1 : endV < startV
    · rw [if_pos h1]
    · rw [if_neg h1]
      simp [hgi, decode_encode maxV hmx, hlt]

/-- Witness for C7: on the example database (last version 3), the query
`getVersionsForKey(ns, key, 4, 5)` is rejected. -/
theorem getVersionsForKey_invalid_range_witness :
    getVersionsForKey dbC3 [110] [107] 4 5 = .error () :=
  getVersionsForKey_invalid_range dbC3 [110] [107] 4 5 3
    (Or.inr ⟨by decide, by norm_num, by norm_num⟩)

/-! ## Block-range update scanner (part_002 variant)

`QueryExecutor.GetUpdatesByBlockRange`, `blockRangeScanner` and its methods
`countKeyUpdates`, `nextKey`, `updateCurrentKeyData` and `Next` from
`src/unnamed/part_002` (lines 354-527).  The block store / protobuf pipeline
is abstracted: `blocks b` is the list of transactions of block `b`, each
transaction being the list of keys its first read-write set for the target
namespace writes (what `countKeyUpdatesForTran` counts); `idxVals key` is
the ascending list of LocalIndex values the levelDB range iterator for
`key` walks; `env key blockNum tranNum` is the
`RetrieveTxByBlockNumTranNum` / `getKeyModificationFromTran` pipeline
(`none` covering every error return on that path). -/

/-- The counting phase of `countKeyUpdates` (part_002 lines 449-475): how
often `key` is written across blocks `startB..endB` (each transaction
contributes `keyCounts[kvWrite.Key] += 1` per write occurrence). -/
def countInRange (blocks : Nat → List (List Bytes)) (startB endB : Nat)
    (key : Bytes) : Nat :=
  (((List.range' startB (endB + 1 - startB)).map
      (fun b => ((blocks b).map (fun tx => tx.count key)).sum)).sum)

/-- The mutable state of `blockRangeScanner` (part_002 lines 382-395).  The
`namespace`, `levelDB`, `dbItr` and `blockStore` fields only feed the
abstracted pipelines; `currentKeyItr` is the list of LocalIndex values the
current key's iterator has not yet consumed, with `none` for the Go `nil`
iterator; the Go field `end` is named `stop`.  `txIndex` is a Go `int` that
is only ever set to `0` or incremented, hence a `Nat`. -/
structure blockRangeScanner where
  start : Nat
  stop : Nat
  keys : List Bytes
  keyIndex : Int
  currentKeyItr : Option (List Bytes)
  blockNum : Nat
  transactions : List Nat
  txIndex : Nat
deriving DecidableEq

/-- The skip loop of `nextKey` (part_002 lines 493-505): advance the freshly
opened iterator past entries with `blockNum < start` (note: no upper-bound
check) and decode the first entry at or after `start`, returning it with the
remaining iterator; `none` when the iterator drains first. -/
def brSkip (startB : Nat) : List Bytes → Except Unit (Option (Nat × List Nat × List Bytes))
  | [] => .ok none
  | v :: rest =>
    match decodeNewIndex v with
    | none => .error ()
    | some (blk, txs) =>
      if startB ≤ blk then .ok (some (blk, txs, rest)) else brSkip startB rest

/-- `nextKey` (part_002 lines 477-508): advance `keyIndex` and open the next
key's range iterator, skipping to its first entry at or after `start`; a key
whose iterator drains without such an entry falls through to the following
key (the tail recursion on line 507).  Structural recursion is on the suffix
`keys.drop ki` of keys still to try, mirroring the
`keyIndex >= len(keys)` bound check; the `get?` mismatch arm is unreachable
while the suffix stays in sync with `ki`. -/
def brNextKeyAux (idxVals : Bytes → List Bytes) (startB : Nat)
    (keys : List Bytes) :
    List Bytes → Nat → Except Unit (Option (Nat × Nat × List Nat × List Bytes))
  | [], _ => .ok none
  | _ :: remKeys, ki =>
    match keys.get? ki with
    | none => .ok none
    | some key =>
      match brSkip startB (idxVals key) with
      | .error e => .error e
      | .ok none => brNextKeyAux idxVals startB keys remKeys (ki + 1)
      | .ok (some (blk, txs, rest)) => .ok (some (ki, blk, txs, rest))

/-- The state transition of one `nextKey` call from state `s`: on success
the scanner is positioned at the found key with its first in-range entry
loaded; on a clean `false` only `keyIndex` has moved past the end
(`Release` of spent iterators is not modelled — a scanner that reported
`hasNext = false` is never stepped again). -/
def brNextKey (idxVals : Bytes → List Bytes) (s : blockRangeScanner) :
    Except Unit (Bool × blockRangeScanner) :=
  match brNextKeyAux idxVals s.start s.keys
      (s.keys.drop ((s.keyIndex + 1).toNat)) ((s.keyIndex + 1).toNat) with
  | .error e => .error e
  | .ok none => .ok (false, { s with keyIndex := (s.keys.length : Int) })
  | .ok (some (ki, blk, txs, rest)) =>
      .ok (true, { s with keyIndex := (ki : Int), currentKeyItr := some rest,
                          blockNum := blk, transactions := txs, txIndex := 0 })

/-- `updateCurrentKeyData` (part_002 lines 510-527): advance the current
key's iterator once; the key is exhausted when the iterator drains or the
next entry's block lies beyond `end`, otherwise the entry is loaded.  (In
the exhausted-by-bound case the Go iterator has still advanced past the
entry; the spent iterator is released by the ensuing `nextKey`, so the
difference is unobservable.) -/
def brUpdate (stopB : Nat) : List Bytes → Except Unit (Option (Nat × List Nat × List Bytes))
  | [] => .ok none
  | v :: rest =>
    match decodeNewIndex v with
    | none => .error ()
    | some (blk, txs) =>
      if stopB < blk then .ok none else .ok (some (blk, txs, rest))

/-- The tail of `blockRangeScanner.Next` from the line
`key := scanner.keys[scanner.keyIndex]` on (part_002 lines 415-442): read
the key and transaction number (a Go panic if either index is out of
range), advance `txIndex`, and resolve the modification through the
abstracted block-store pipeline `env`. -/
def blockRangeScanner.emit (env : Bytes → Nat → Nat → Option KeyModification)
    (s : blockRangeScanner) : StepRes × blockRangeScanner :=
  if s.keyIndex < 0 then (.fault, s)
  else
    match s.keys.get? s.keyIndex.toNat with
    | none => (.fault, s)
    | some key =>
      match s.transactions.get? s.txIndex with
      | none => (.fault, s)
      | some tranNum =>
        let s' := { s with txIndex := s.txIndex + 1 }
        match env key s.blockNum tranNum with
        | none => (.err, s')
        | some m => (.res m, s')

/-- `blockRangeScanner.Next` (part_002 lines 397-443).  A `nil`
`currentKeyItr` (no key ever qualified) makes `updateCurrentKeyData`
dereference a nil pointer: a Go panic, modelled by `fault`. -/
def blockRangeScanner.Next (env : Bytes → Nat → Nat → Option KeyModification)
    (idxVals : Bytes → List Bytes) (s : blockRangeScanner) :
    StepRes × blockRangeScanner :=
  if s.transactions.length ≤ s.txIndex then
    match s.currentKeyItr with
    | none => (.fault, s)
    | some itr =>
      match brUpdate s.stop itr with
      | .error _ => (.err, s)
      | .ok (some (blk, txs, rest)) =>
        blockRangeScanner.emit env
          { s with currentKeyItr := some rest, blockNum := blk,
                   transactions := txs, txIndex := 0 }
      | .ok none =>
        match brNextKey idxVals s with
        | .error _ => (.err, s)
        | .ok (false, s') => (.done, s')
        | .ok (true, s') => blockRangeScanner.emit env s'
  else blockRangeScanner.emit env s

/-- `GetUpdatesByBlockRange` (part_002 lines 355-379).  `keyOrder` models
Go's nondeterministic iteration order over the `keyCounts` map: some
enumeration, once each, of the keys written in the range; `countKeyUpdates`
appends to `scanner.keys` exactly the keys meeting the threshold
(`count >= int(updates)`), in that order.  The boolean result of the
initial `nextKey` is discarded exactly as in the source (line 371); the
error paths of `countKeyUpdates` lie inside the abstracted, total `blocks`
pipeline. -/
def getUpdatesByBlockRange (idxVals : Bytes → List Bytes)
    (blocks : Nat → List (List Bytes)) (keyOrder : List Bytes)
    (startB endB updates : Nat) : Except Unit blockRangeScanner :=
  if endB < startB then .error ()
  else if endB = 0 ∨ startB = 0 then .error ()
  else
    let ks := keyOrder.filter (fun k => decide (updates ≤ countInRange blocks startB endB k))
    let s0 : blockRangeScanner :=
      { start := startB, stop := endB, keys := ks, keyIndex := -1,
        currentKeyItr := none, blockNum := 0, transactions := [], txIndex := 0 }
    match brNextKey idxVals s0 with
    | .error e => .error e
    | .ok (_, s1) => .ok s1

/-- Build a block-range scanner and run it: `none` when the construction
itself fails. -/
def brRun (idxVals : Bytes → List Bytes) (blocks : Nat → List (List Bytes))
    (keyOrder : List Bytes) (env : Bytes → Nat → Nat → Option KeyModification)
    (startB endB updates fuel : Nat) : Option (List KeyModification × Bool) :=
  match getUpdatesByBlockRange idxVals blocks keyOrder startB endB updates with
  | .error _ => none
  | .ok s => some (runSteps (blockRangeScanner.Next env idxVals) fuel s)

/-! ### C5: the run is grouped per key, not interleaved by block -/

/-- Blocks for the interleaving counterexample: key `"a"` is written once in
blocks 1 and 3, key `"b"` once in block 2. -/
def blocksC5 : Nat → List (List Bytes) := fun b =>
  if b = 1 then [[[97]]] else if b = 2 then [[[98]]] else if b = 3 then [[[97]]] else []

/-- Index iterators matching `blocksC5`: one LocalIndex entry per block a
key is written in, transaction 0 each time. -/
def idxValsC5 : Bytes → List Bytes := fun k =>
  if k = [97] then [constructLocalIndex 1 [0], constructLocalIndex 3 [0]]
  else if k = [98] then [constructLocalIndex 2 [0]]
  else []

/-- A resolution pipeline tagging each modification with its key and block,
so the emission order is observable. -/
def envC5 : Bytes → Nat → Nat → Option KeyModification := fun k b _ =>
  some ⟨k ++ [b], [], b, false⟩

/-- C5 counterexample: with key `"a"` (byte 97) written in blocks 1 and 3
and key `"b"` (byte 98) written in block 2, threshold 1 and range 1..3, the
scanner returns all of one key's modifications before the other key's —
under either iteration order of the Go `keyCounts` map — never the claimed
block-ascending interleaving a@1, b@2, a@3. -/
theorem getUpdatesByBlockRange_not_block_interleaved :
    brRun idxValsC5 blocksC5 [[97], [98]] envC5 1 3 1 5
      = some ([⟨[97, 1], [], 1, false⟩, ⟨[97, 3], [], 3, false⟩,
               ⟨[98, 2], [], 2, false⟩], true) ∧
    brRun idxValsC5 blocksC5 [[98], [97]] envC5 1 3 1 5
      = some ([⟨[98, 2], [], 2, false⟩, ⟨[97, 1], [], 1, false⟩,
               ⟨[97, 3], [], 3, false⟩], true) ∧
    ([⟨[97, 1], [], 1, false⟩, ⟨[97, 3], [], 3, false⟩,
      ⟨[98, 2], [], 2, false⟩] : List KeyModification)
      ≠ [⟨[97, 1], [], 1, false⟩, ⟨[98, 2], [], 2, false⟩, ⟨[97, 3], [], 3, false⟩] ∧
    ([⟨[98, 2], [], 2, false⟩, ⟨[97, 1], [], 1, false⟩,
      ⟨[97, 3], [], 3, false⟩] : List KeyModification)
      ≠ [⟨[97, 1], [], 1, false⟩, ⟨[98, 2], [], 2, false⟩, ⟨[97, 3], [], 3, false⟩] := by
  decide

/-- Well-formedness of one decoded index entry `(blockNum, transactions)`:
encodable numbers and at least one transaction. -/
def brEntryOk (e : Nat × List Nat) : Prop :=
  e.1 < 2 ^ 64 ∧ e.2 ≠ [] ∧ ∀ t ∈ e.2, t < 2 ^ 64

/-- The per-key output of the block-range scan: the modifications of every
index entry of `key` whose block lies in `[startB, endB]`, entries in stored
(ascending-block) order, transactions in stored order. -/
def perKeyOut (modsF : Bytes → Nat → Nat → KeyModification)
    (startB endB : Nat) (entsOf : Bytes → List (Nat × List Nat))
    (key : Bytes) : List KeyModification :=
  (((entsOf key).filter
      (fun e => decide (startB ≤ e.1) && decide (e.1 ≤ endB))).map
    (fun e => e.2.map (fun t => modsF key e.1 t))).flatten

theorem brUpdate_load (stopB : Nat) (e : Nat × List Nat) (l : List (Nat × List Nat))
    (hwfe : brEntryOk e) (hle : e.1 ≤ stopB) :
    brUpdate stopB ((e :: l).map (fun e' => constructLocalIndex e'.1 e'.2))
      = .ok (some (e.1, e.2, l.map (fun e' => constructLocalIndex e'.1 e'.2))) := by
  obtain ⟨hb, -, ht⟩ := hwfe
  have hdec : decodeNewIndex (constructLocalIndex e.1 e.2) = some (e.1, e.2) :=
    decodeLocalIndex_constructLocalIndex e.1 e.2 hb ht
  simp only [List.map_cons, brUpdate, hdec, if_neg (by omega : ¬ stopB < e.1)]

theorem brUpdate_stop (stopB : Nat) (e : Nat × List Nat) (l : List (Nat × List Nat))
    (hwfe : brEntryOk e) (hgt : stopB < e.1) :
    brUpdate stopB ((e :: l).map (fun e' => constructLocalIndex e'.1 e'.2))
      = .ok none := by
  obtain ⟨hb, -, ht⟩ := hwfe
  have hdec : decodeNewIndex (constructLocalIndex e.1 e.2) = some (e.1, e.2) :=
    decodeLocalIndex_constructLocalIndex e.1 e.2 hb ht
  simp only [List.map_cons, brUpdate, hdec, if_pos hgt]

theorem brNext_emit (env : Bytes → Nat → Nat → Option KeyModification)
    (idxVals : Bytes → List Bytes) (s : blockRangeScanner)
    (h : s.txIndex < s.transactions.length) :
    blockRangeScanner.Next env idxVals s = blockRangeScanner.emit env s := by
  rw [blockRangeScanner.Next, if_neg (by omega)]

theorem brNext_update (env : Bytes → Nat → Nat → Option KeyModification)
    (idxVals : Bytes → List Bytes) (s : blockRangeScanner)
    (itr : List Bytes) (blk : Nat) (txs : List Nat) (rest : List Bytes)
    (hex : s.transactions.length ≤ s.txIndex)
    (hitr : s.currentKeyItr = some itr)
    (hupd : brUpdate s.stop itr = .ok (some (blk, txs, rest))) :
    blockRangeScanner.Next env idxVals s
      = blockRangeScanner.emit env
          { s with currentKeyItr := some rest, blockNum := blk,
                   transactions := txs, txIndex := 0 } := by
  rw [blockRangeScanner.Next, if_pos hex, hitr]
  simp only [hupd]

theorem brNext_done (env : Bytes → Nat → Nat → Option KeyModification)
    (idxVals : Bytes → List Bytes) (s : blockRangeScanner)
    (itr : List Bytes) (s' : blockRangeScanner)
    (hex : s.transactions.length ≤ s.txIndex)
    (hitr : s.currentKeyItr = some itr)
    (hupd : brUpdate s.stop itr = .ok none)
    (hnk : brNextKey idxVals s = .ok (false, s')) :
    blockRangeScanner.Next env idxVals s = (.done, s') := by
  rw [blockRangeScanner.Next, if_pos hex, hitr]
  simp only [hupd, hnk]

theorem brNext_nextKey (env : Bytes → Nat → Nat → Option KeyModification)
    (idxVals : Bytes → List Bytes) (s : blockRangeScanner)
    (itr : List Bytes) (s' : blockRangeScanner)
    (hex : s.transactions.length ≤ s.txIndex)
    (hitr : s.currentKeyItr = some itr)
    (hupd : brUpdate s.stop itr = .ok none)
    (hnk : brNextKey idxVals s = .ok (true, s')) :
    blockRangeScanner.Next env idxVals s = blockRangeScanner.emit env s' := by
  rw [blockRangeScanner.Next, if_pos hex, hitr]
  simp only [hupd, hnk]

theorem brEmit_res (env : Bytes → Nat → Nat → Option KeyModification)
    (s : blockRangeScanner) (key : Bytes) (tranNum : Nat) (m : KeyModification)
    (hki : ¬ s.keyIndex < 0)
    (hkey : s.keys.get? s.keyIndex.toNat = some key)
    (htx : s.transactions.get? s.txIndex = some tranNum)
    (henv : env key s.blockNum tranNum = some m) :
    blockRangeScanner.emit env s = (.res m, { s with txIndex := s.txIndex + 1 }) := by
  rw [blockRangeScanner.emit, if_neg hki]
  simp only [hkey, htx, henv]

theorem brNextKey_exhausts (idxVals : Bytes → List Bytes) (s : blockRangeScanner)
    (hks : s.keys.drop ((s.keyIndex + 1).toNat) = []) :
    brNextKey idxVals s = .ok (false, { s with keyIndex := (s.keys.length : Int) }) := by
  rw [brNextKey, hks]
  simp only [brNextKeyAux]

/-- The skip loop of `nextKey` over a well-formed, block-sorted entry list
holding at least one entry inside the window finds exactly the first entry
at or after `startB`, which is also the first entry of the window filter. -/
theorem brSkip_window (startB endB : Nat) (l : List (Nat × List Nat))
    (hwf : ∀ e ∈ l, brEntryOk e)
    (hsort : l.Pairwise (fun e₁ e₂ => e₁.1 < e₂.1))
    (hwin : ∃ e ∈ l, startB ≤ e.1 ∧ e.1 ≤ endB) :
    ∃ (blk : Nat) (txs : List Nat) (rest : List (Nat × List Nat)),
      brSkip startB (l.map (fun e => constructLocalIndex e.1 e.2))
        = .ok (some (blk, txs, rest.map (fun e => constructLocalIndex e.1 e.2)))
      ∧ startB ≤ blk ∧ blk ≤ endB ∧ brEntryOk (blk, txs)
      ∧ (∀ e ∈ rest, brEntryOk e)
      ∧ rest.Pairwise (fun e₁ e₂ => e₁.1 < e₂.1)
      ∧ (∀ e ∈ rest, blk < e.1)
      ∧ l.filter (fun e => decide (startB ≤ e.1) && decide (e.1 ≤ endB))
          = (blk, txs) ::
            rest.filter (fun e => decide (startB ≤ e.1) && decide (e.1 ≤ endB)) := by
  induction l with
  | nil => simp at hwin
  | cons e l' ih =>
    have hwfe : brEntryOk e := hwf e (by simp)
    have hwf' : ∀ e' ∈ l', brEntryOk e' := fun e' he' => hwf e' (by simp [he'])
    have hsort' : l'.Pairwise (fun e₁ e₂ => e₁.1 < e₂.1) := hsort.of_cons
    have hhead : ∀ e' ∈ l', e.1 < e'.1 := fun e' he' => List.rel_of_pairwise_cons hsort he'
    obtain ⟨hb, -, ht⟩ := hwfe
    have hdec : decodeNewIndex (constructLocalIndex e.1 e.2) = some (e.1, e.2) :=
      decodeLocalIndex_constructLocalIndex e.1 e.2 hb ht
    by_cases hs : startB ≤ e.1
    · have hend : e.1 ≤ endB := by
        obtain ⟨w, hw, hw1, hw2⟩ := hwin
        rcases List.mem_cons.mp hw with rfl | hw'
        · exact hw2
        · exact le_of_lt (lt_of_lt_of_le (hhead w hw') hw2)
      refine ⟨e.1, e.2, l', ?_, hs, hend, ⟨hb, (hwf e (by simp)).2.1, ht⟩,
        hwf', hsort', hhead, ?_⟩
      · simp only [List.map_cons, brSkip, hdec, if_pos hs]
      · rw [List.filter_cons_of_pos (by simp [hs, hend])]
    · obtain ⟨w, hw, hw1, hw2⟩ := hwin
      have hw' : w ∈ l' := by
        rcases List.mem_cons.mp hw with rfl | hw'
        · exact absurd hw1 hs
        · exact hw'
      obtain ⟨blk, txs, rest, hskip, h1, h2, h3, h4, h5, h6, h7⟩ :=
        ih hwf' hsort' ⟨w, hw', hw1, hw2⟩
      refine ⟨blk, txs, rest, ?_, h1, h2, h3, h4, h5, h6, ?_⟩
      · simp only [List.map_cons, brSkip, hdec, if_neg hs]
        exact hskip
      · rw [List.filter_cons_of_neg (by simp [hs])]
        exact h7

/-- In a scanner whose remaining key suffix starts with a key holding an
in-window entry (as the threshold precheck intends), `nextKey` succeeds and
loads that key's first in-range entry. -/
theorem brNextKey_finds (idxVals : Bytes → List Bytes) (startB endB : Nat)
    (entsOf : Bytes → List (Nat × List Nat)) (cands : List Bytes)
    (s : blockRangeScanner) (k : Bytes) (ks' : List Bytes)
    (hvals : idxVals k = (entsOf k).map (fun e => constructLocalIndex e.1 e.2))
    (hwfk : ∀ e ∈ entsOf k, brEntryOk e)
    (hsortk : (entsOf k).Pairwise (fun e₁ e₂ => e₁.1 < e₂.1))
    (hwink : ∃ e ∈ entsOf k, startB ≤ e.1 ∧ e.1 ≤ endB)
    (hkeys : s.keys = cands) (hstart : s.start = startB)
    (hks : cands.drop ((s.keyIndex + 1).toNat) = k :: ks') :
    ∃ (blk : Nat) (txs : List Nat) (rest : List (Nat × List Nat)),
      brNextKey idxVals s = .ok (true,
        { s with keyIndex := (((s.keyIndex + 1).toNat : Nat) : Int),
                 currentKeyItr := some (rest.map (fun e => constructLocalIndex e.1 e.2)),
                 blockNum := blk, transactions := txs, txIndex := 0 })
      ∧ startB ≤ blk ∧ blk ≤ endB ∧ brEntryOk (blk, txs)
      ∧ (∀ e ∈ rest, brEntryOk e)
      ∧ rest.Pairwise (fun e₁ e₂ => e₁.1 < e₂.1)
      ∧ (∀ e ∈ rest, blk < e.1)
      ∧ (entsOf k).filter (fun e => decide (startB ≤ e.1) && decide (e.1 ≤ endB))
          = (blk, txs) ::
            rest.filter (fun e => decide (startB ≤ e.1) && decide (e.1 ≤ endB)) := by
  obtain ⟨blk, txs, rest, hskip, h1, h2, h3, h4, h5, h6, h7⟩ :=
    brSkip_window startB endB (entsOf k) hwfk hsortk hwink
  have hget : s.keys.get? ((s.keyIndex + 1).toNat) = some k := by
    rw [hkeys]
    exact get?_of_drop_cons hks
  refine ⟨blk, txs, rest, ?_, h1, h2, h3, h4, h5, h6, h7⟩
  rw [brNextKey]
  rw [show s.keys.drop ((s.keyIndex + 1).toNat) = k :: ks' by rw [hkeys]; exact hks]
  simp only [brNextKeyAux, hget, hstart, hvals, hskip]

/-- Draining the loaded transaction list: from a state positioned at `key`
with `txIndex = i`, successive steps emit the modifications of the
transactions from `i` on and leave the scanner with `txIndex` at the end of
the list. -/
theorem brEmits_txs (modsF : Bytes → Nat → Nat → KeyModification)
    (idxVals : Bytes → List Bytes) (key : Bytes) (txs : List Nat) :
    ∀ (l : List Nat) (i : Nat) (s : blockRangeScanner),
      txs.drop i = l → i ≤ txs.length →
      s.transactions = txs → s.txIndex = i →
      0 ≤ s.keyIndex → s.keys.get? s.keyIndex.toNat = some key →
      Emits (blockRangeScanner.Next (fun k b t => some (modsF k b t)) idxVals) s
        (l.map (fun t => modsF key s.blockNum t))
        { s with txIndex := txs.length } := by
  intro l
  induction l with
  | nil =>
    intro i s hdrop hile htr htx hki hkey
    have hlen : txs.length ≤ i := by
      by_contra hcon
      push_neg at hcon
      have := List.drop_eq_nil_iff.mp hdrop
      omega
    have hieq : txs.length = i := by omega
    have hfin : ({ s with txIndex := txs.length } : blockRangeScanner) = s := by
      rw [hieq, ← htx]
    rw [hfin]
    exact Emits.nil s
  | cons m l' ihl =>
    intro i s hdrop hile htr htx hki hkey
    have hgetm : txs.get? i = some m := get?_of_drop_cons hdrop
    have hlt : i < txs.length := (List.get?_eq_some.mp hgetm).1
    have hstep : blockRangeScanner.Next (fun k b t => some (modsF k b t)) idxVals s
        = (.res (modsF key s.blockNum m), { s with txIndex := s.txIndex + 1 }) := by
      rw [brNext_emit _ _ _ (by rw [htr, htx]; exact hlt)]
      exact brEmit_res _ s key m _ (by omega) hkey (by rw [htr, htx]; exact hgetm) rfl
    refine Emits.cons hstep ?_
    have hrec := ihl (i + 1) ({ s with txIndex := s.txIndex + 1 })
      (by rw [← List.tail_drop, hdrop]; rfl) (by omega) htr (by rw [htx]) hki hkey
    exact hrec

/-- Draining one key entirely: from a state loaded at `key`'s entry
`(blk, txs)` with decoded entries `entsR` still ahead on its iterator, the
scan emits that entry's transactions and then every remaining entry inside
the window, after which it behaves as the continuation `hcont` describes
for the exhausted state reached. -/
theorem brYields_inner (modsF : Bytes → Nat → Nat → KeyModification)
    (idxVals : Bytes → List Bytes) (startB endB : Nat) (cands : List Bytes)
    (k : Bytes) (ksCur : List Bytes) (contOut : List KeyModification)
    (hcont : ∀ (t' : blockRangeScanner) (remF : List (Nat × List Nat)),
      t'.keys = cands → t'.start = startB → t'.stop = endB →
      0 ≤ t'.keyIndex → cands.drop (t'.keyIndex.toNat + 1) = ksCur →
      t'.transactions.length ≤ t'.txIndex →
      t'.currentKeyItr = some (remF.map (fun e => constructLocalIndex e.1 e.2)) →
      (∀ e ∈ remF, brEntryOk e) →
      (remF = [] ∨ ∃ e₁ r', remF = e₁ :: r' ∧ endB < e₁.1) →
      Yields (blockRangeScanner.Next (fun k' b tx => some (modsF k' b tx)) idxVals)
        t' contOut) :
    ∀ (entsR : List (Nat × List Nat)),
      (∀ e ∈ entsR, brEntryOk e) →
      entsR.Pairwise (fun e₁ e₂ => e₁.1 < e₂.1) →
      ∀ (blk : Nat) (txs : List Nat) (t : blockRangeScanner),
        t.keys = cands → t.start = startB → t.stop = endB →
        0 ≤ t.keyIndex → cands.get? t.keyIndex.toNat = some k →
        cands.drop (t.keyIndex.toNat + 1) = ksCur →
        t.currentKeyItr = some (entsR.map (fun e => constructLocalIndex e.1 e.2)) →
        t.transactions = txs → t.txIndex = 0 → t.blockNum = blk →
        txs ≠ [] → startB ≤ blk → (∀ e ∈ entsR, blk < e.1) →
        Yields (blockRangeScanner.Next (fun k' b tx => some (modsF k' b tx)) idxVals) t
          (txs.map (fun tx => modsF k blk tx)
            ++ ((entsR.filter
                  (fun e => decide (startB ≤ e.1) && decide (e.1 ≤ endB))).map
                  (fun e => e.2.map (fun tx => modsF k e.1 tx))).flatten
            ++ contOut) := by
  intro entsR
  induction entsR with
  | nil =>
    intro hwfR hsortR blk txs t hkeys hst hsp hki0 hget hdropk hitr htr htx0 hblk htne hblo hblt
    have hgetk : t.keys.get? t.keyIndex.toNat = some k := by rw [hkeys]; exact hget
    have hEm := brEmits_txs modsF idxVals k txs txs 0 t (by rw [List.drop_zero])
      (by omega) htr htx0 hki0 hgetk
    have hY : Yields (blockRangeScanner.Next (fun k' b tx => some (modsF k' b tx)) idxVals)
        ({ t with txIndex := txs.length }) contOut := by
      refine hcont _ [] hkeys hst hsp hki0 hdropk ?_ hitr (by simp) (Or.inl rfl)
      show t.transactions.length ≤ txs.length
      rw [htr]
    have := Yields.of_emits hEm hY
    simpa [hblk] using this
  | cons e₁ entsR' ihE =>
    intro hwfR hsortR blk txs t hkeys hst hsp hki0 hget hdropk hitr htr htx0 hblk htne hblo hblt
    have hgetk : t.keys.get? t.keyIndex.toNat = some k := by rw [hkeys]; exact hget
    have hwfe₁ : brEntryOk e₁ := hwfR e₁ (by simp)
    have hwfR' : ∀ e ∈ entsR', brEntryOk e := fun e he => hwfR e (by simp [he])
    have hsortR' : entsR'.Pairwise (fun a b => a.1 < b.1) := hsortR.of_cons
    have hheadR : ∀ e ∈ entsR', e₁.1 < e.1 :=
      fun e he => List.rel_of_pairwise_cons hsortR he
    have hEm := brEmits_txs modsF idxVals k txs txs 0 t (by rw [List.drop_zero])
      (by omega) htr htx0 hki0 hgetk
    have hexh : (({ t with txIndex := txs.length } : blockRangeScanner)).transactions.length
        ≤ (({ t with txIndex := txs.length } : blockRangeScanner)).txIndex := by
      show t.transactions.length ≤ txs.length
      rw [htr]
    by_cases hbig : endB < e₁.1
    · have hfil : (e₁ :: entsR').filter
          (fun e => decide (startB ≤ e.1) && decide (e.1 ≤ endB)) = [] := by
        rw [List.filter_eq_nil_iff]
        intro a ha
        rcases List.mem_cons.mp ha with rfl | ha'
        · simp
          omega
        · have := hheadR a ha'
          simp
          omega
      have hY : Yields (blockRangeScanner.Next (fun k' b tx => some (modsF k' b tx)) idxVals)
          ({ t with txIndex := txs.length }) contOut := by
        refine hcont _ (e₁ :: entsR') hkeys hst hsp hki0 hdropk hexh hitr hwfR ?_
        exact Or.inr ⟨e₁, entsR', rfl, hbig⟩
      have := Yields.of_emits hEm hY
      simpa [hblk, hfil] using this
    · have hle₁ : e₁.1 ≤ endB := by omega
      have hs₁ : startB ≤ e₁.1 := le_of_lt (lt_of_le_of_lt hblo (hblt e₁ (by simp)))
      have hfil : (e₁ :: entsR').filter
            (fun e => decide (startB ≤ e.1) && decide (e.1 ≤ endB))
          = e₁ :: entsR'.filter
              (fun e => decide (startB ≤ e.1) && decide (e.1 ≤ endB)) :=
        List.filter_cons_of_pos (by simp [hs₁, hle₁])
      have hupd : brUpdate (({ t with txIndex := txs.length } : blockRangeScanner)).stop
          ((e₁ :: entsR').map (fun e => constructLocalIndex e.1 e.2))
          = .ok (some (e₁.1, e₁.2,
              entsR'.map (fun e => constructLocalIndex e.1 e.2))) := by
        show brUpdate t.stop _ = _
        rw [hsp]
        exact brUpdate_load endB e₁ entsR' hwfe₁ hle₁
      have hstep₃ := brNext_update (fun k' b tx => some (modsF k' b tx)) idxVals
        ({ t with txIndex := txs.length }) _ e₁.1 e₁.2
        (entsR'.map (fun e => constructLocalIndex e.1 e.2)) hexh hitr hupd
      have hne₁ : e₁.2 ≠ [] := hwfe₁.2.1
      have hstep₄ := brNext_emit (fun k' b tx => some (modsF k' b tx)) idxVals
        ({ t with
            currentKeyItr := some (entsR'.map (fun e => constructLocalIndex e.1 e.2)),
            blockNum := e₁.1, transactions := e₁.2, txIndex := 0 })
        (by show 0 < e₁.2.length; exact List.length_pos.mpr hne₁)
      have hcongr : blockRangeScanner.Next (fun k' b tx => some (modsF k' b tx)) idxVals
            ({ t with txIndex := txs.length })
          = blockRangeScanner.Next (fun k' b tx => some (modsF k' b tx)) idxVals
            ({ t with
                currentKeyItr := some (entsR'.map (fun e => constructLocalIndex e.1 e.2)),
                blockNum := e₁.1, transactions := e₁.2, txIndex := 0 }) := by
        rw [hstep₃, hstep₄]
      have hYtail := ihE hwfR' hsortR' e₁.1 e₁.2
        ({ t with
            currentKeyItr := some (entsR'.map (fun e => constructLocalIndex e.1 e.2)),
            blockNum := e₁.1, transactions := e₁.2, txIndex := 0 })
        hkeys hst hsp hki0 hget hdropk rfl rfl rfl rfl hne₁ hs₁ hheadR
      have hY₃ := Yields.congr_first hcongr hYtail
      have hall := Yields.of_emits hEm hY₃
      rw [hfil]
      simp only [List.map_cons, List.flatten_cons, hblk] at hall ⊢
      simpa [List.append_assoc] using hall

/-- Draining the scanner key by key: from a state loaded at key `k`'s first
in-window entry, with candidate keys `ks` still ahead, the scan emits `k`'s
in-window modifications followed by each later key's in turn, then ends
cleanly. -/
theorem brYields_loaded (modsF : Bytes → Nat → Nat → KeyModification)
    (idxVals : Bytes → List Bytes) (startB endB : Nat)
    (entsOf : Bytes → List (Nat × List Nat)) (cands : List Bytes)
    (hvals : ∀ k ∈ cands,
      idxVals k = (entsOf k).map (fun e => constructLocalIndex e.1 e.2))
    (hwf : ∀ k ∈ cands, ∀ e ∈ entsOf k, brEntryOk e)
    (hsort : ∀ k ∈ cands, (entsOf k).Pairwise (fun e₁ e₂ => e₁.1 < e₂.1))
    (hwin : ∀ k ∈ cands, ∃ e ∈ entsOf k, startB ≤ e.1 ∧ e.1 ≤ endB) :
    ∀ (ks : List Bytes) (k : Bytes) (entsR : List (Nat × List Nat)),
      (∀ e ∈ entsR, brEntryOk e) →
      entsR.Pairwise (fun e₁ e₂ => e₁.1 < e₂.1) →
      ∀ (blk : Nat) (txs : List Nat) (t : blockRangeScanner),
        t.keys = cands → t.start = startB → t.stop = endB →
        0 ≤ t.keyIndex → cands.get? t.keyIndex.toNat = some k →
        cands.drop (t.keyIndex.toNat + 1) = ks →
        t.currentKeyItr = some (entsR.map (fun e => constructLocalIndex e.1 e.2)) →
        t.transactions = txs → t.txIndex = 0 → t.blockNum = blk →
        txs ≠ [] → startB ≤ blk → (∀ e ∈ entsR, blk < e.1) →
        Yields (blockRangeScanner.Next (fun k' b tx => some (modsF k' b tx)) idxVals) t
          (txs.map (fun tx => modsF k blk tx)
            ++ ((entsR.filter
                  (fun e => decide (startB ≤ e.1) && decide (e.1 ≤ endB))).map
                  (fun e => e.2.map (fun tx => modsF k e.1 tx))).flatten
            ++ (ks.map (perKeyOut modsF startB endB entsOf)).flatten) := by
  intro ks
  induction ks with
  | nil =>
    intro k entsR hwfR hsortR blk txs t ht1 ht2 ht3 ht4 ht5 ht6 ht7 ht8 ht9 ht10 ht11 ht12 ht13
    have hY := brYields_inner modsF idxVals startB endB cands k [] []
      ?_ entsR hwfR hsortR blk txs t ht1 ht2 ht3 ht4 ht5 ht6 ht7 ht8 ht9 ht10 ht11 ht12 ht13
    · simpa using hY
    · intro t' remF h1 h2 h3 h4 h5 h6 h7 h8 h9
      have hupd : brUpdate t'.stop (remF.map (fun e => constructLocalIndex e.1 e.2))
          = .ok none := by
        rcases h9 with rfl | ⟨e₁, r', rfl, hbig⟩
        · rfl
        · rw [h3]
          exact brUpdate_stop endB e₁ r' (h8 e₁ (by simp)) hbig
      have hdropkeys : t'.keys.drop ((t'.keyIndex + 1).toNat) = [] := by
        rw [h1, show (t'.keyIndex + 1).toNat = t'.keyIndex.toNat + 1 by omega]
        exact h5
      have hstep := brNext_done (fun k' b tx => some (modsF k' b tx)) idxVals t' _ _
        h6 h7 hupd (brNextKey_exhausts idxVals t' hdropkeys)
      exact ⟨t', _, Emits.nil t', hstep⟩
  | cons k' ks'' ih =>
    intro k entsR hwfR hsortR blk txs t ht1 ht2 ht3 ht4 ht5 ht6 ht7 ht8 ht9 ht10 ht11 ht12 ht13
    refine brYields_inner modsF idxVals startB endB cands k (k' :: ks'')
      (((k' :: ks'').map (perKeyOut modsF startB endB entsOf)).flatten)
      ?_ entsR hwfR hsortR blk txs t ht1 ht2 ht3 ht4 ht5 ht6 ht7 ht8 ht9 ht10 ht11 ht12 ht13
    intro t' remF h1 h2 h3 h4 h5 h6 h7 h8 h9
    have hk' : k' ∈ cands := by
      have hsub := List.drop_subset (t'.keyIndex.toNat + 1) cands
      rw [h5] at hsub
      exact hsub (by simp)
    have hupd : brUpdate t'.stop (remF.map (fun e => constructLocalIndex e.1 e.2))
        = .ok none := by
      rcases h9 with rfl | ⟨e₁, r', rfl, hbig⟩
      · rfl
      · rw [h3]
        exact brUpdate_stop endB e₁ r' (h8 e₁ (by simp)) hbig
    have hdropfull : cands.drop ((t'.keyIndex + 1).toNat) = k' :: ks'' := by
      rw [show (t'.keyIndex + 1).toNat = t'.keyIndex.toNat + 1 by omega]
      exact h5
    obtain ⟨blk', txs', rest', hnk, hb1, hb2, hb3, hb4, hb5, hb6, hb7⟩ :=
      brNextKey_finds idxVals startB endB entsOf cands t' k' ks''
        (hvals k' hk') (hwf k' hk') (hsort k' hk') (hwin k' hk') h1 h2 hdropfull
    have htxne : txs' ≠ [] := hb3.2.1
    have hstep' := brNext_nextKey (fun k'' b tx => some (modsF k'' b tx)) idxVals t' _ _
      h6 h7 hupd hnk
    have hstep₁ := brNext_emit (fun k'' b tx => some (modsF k'' b tx)) idxVals
      ({ t' with keyIndex := (((t'.keyIndex + 1).toNat : Nat) : Int),
                 currentKeyItr := some (rest'.map (fun e => constructLocalIndex e.1 e.2)),
                 blockNum := blk', transactions := txs', txIndex := 0 })
      (by show 0 < txs'.length; exact List.length_pos.mpr htxne)
    have hcongr : blockRangeScanner.Next (fun k'' b tx => some (modsF k'' b tx)) idxVals t'
        = blockRangeScanner.Next (fun k'' b tx => some (modsF k'' b tx)) idxVals
            ({ t' with
                keyIndex := (((t'.keyIndex + 1).toNat : Nat) : Int),
                currentKeyItr := some (rest'.map (fun e => constructLocalIndex e.1 e.2)),
                blockNum := blk', transactions := txs', txIndex := 0 }) := by
      rw [hstep', hstep₁]
    have hY := ih k' rest' hb4 hb5 blk' txs'
      ({ t' with keyIndex := (((t'.keyIndex + 1).toNat : Nat) : Int),
                 currentKeyItr := some (rest'.map (fun e => constructLocalIndex e.1 e.2)),
                 blockNum := blk', transactions := txs', txIndex := 0 })
      h1 h2 h3 (Int.natCast_nonneg _)
      (by rw [show ((((t'.keyIndex + 1).toNat : Nat) : Int)).toNat
            = (t'.keyIndex + 1).toNat from Int.toNat_natCast _]
          exact get?_of_drop_cons hdropfull)
      (by rw [show ((((t'.keyIndex + 1).toNat : Nat) : Int)).toNat
            = (t'.keyIndex + 1).toNat from Int.toNat_natCast _]
          rw [← List.tail_drop, hdropfull]
          rfl)
      rfl rfl rfl rfl htxne hb1 hb6
    refine Yields.congr_first hcongr ?_
    simpa [perKeyOut, hb7, List.append_assoc] using hY

/-- C5 (amended): `GetUpdatesByBlockRange(ns, start, end, u)` with
`1 ≤ start ≤ end` returns a scanner over exactly the keys written at least
`u` times in blocks `start..end` (in the order the Go runtime enumerates the
counting map); provided at least one key qualifies and every qualifying
key's index holds an entry inside the window, the scanner yields the
qualifying keys' modifications grouped key by key in that enumeration
order — within one key ascending by block, transactions in stored order —
not interleaved across keys by block number. -/
theorem getUpdatesByBlockRange_grouped (idxVals : Bytes → List Bytes)
    (blocks : Nat → List (List Bytes)) (keyOrder : List Bytes)
    (startB endB updates : Nat) (entsOf : Bytes → List (Nat × List Nat))
    (modsF : Bytes → Nat → Nat → KeyModification) (cands : List Bytes)
    (hc : cands = keyOrder.filter
      (fun k => decide (updates ≤ countInRange blocks startB endB k)))
    (h0 : 0 < startB) (hse : startB ≤ endB) (hne : cands ≠ [])
    (hvals : ∀ k ∈ cands,
      idxVals k = (entsOf k).map (fun e => constructLocalIndex e.1 e.2))
    (hwf : ∀ k ∈ cands, ∀ e ∈ entsOf k, brEntryOk e)
    (hsort : ∀ k ∈ cands, (entsOf k).Pairwise (fun e₁ e₂ => e₁.1 < e₂.1))
    (hwin : ∀ k ∈ cands, ∃ e ∈ entsOf k, startB ≤ e.1 ∧ e.1 ≤ endB) :
    ∃ s₀, getUpdatesByBlockRange idxVals blocks keyOrder startB endB updates = .ok s₀ ∧
      ∀ f, ((cands.map (perKeyOut modsF startB endB entsOf)).flatten).length + 1 ≤ f →
        runSteps (blockRangeScanner.Next (fun k b t => some (modsF k b t)) idxVals) f s₀
          = ((cands.map (perKeyOut modsF startB endB entsOf)).flatten, true) := by
  obtain ⟨k₀, cands', hcc⟩ := List.exists_cons_of_ne_nil hne
  have hk0 : k₀ ∈ cands := by rw [hcc]; simp
  obtain ⟨blk, txs, rest, hnk, hb1, hb2, hb3, hb4, hb5, hb6, hb7⟩ :=
    brNextKey_finds idxVals startB endB entsOf cands
      ({ start := startB, stop := endB, keys := cands, keyIndex := -1,
         currentKeyItr := none, blockNum := 0, transactions := [], txIndex := 0 })
      k₀ cands' (hvals k₀ hk0) (hwf k₀ hk0) (hsort k₀ hk0) (hwin k₀ hk0)
      rfl rfl (by simpa using hcc)
  have hres : getUpdatesByBlockRange idxVals blocks keyOrder startB endB updates
      = .ok ({ start := startB, stop := endB, keys := cands,
               keyIndex := ((((-1 : Int) + 1).toNat : Nat) : Int),
               currentKeyItr := some (rest.map (fun e => constructLocalIndex e.1 e.2)),
               blockNum := blk, transactions := txs, txIndex := 0 }) := by
    simp only [getUpdatesByBlockRange, if_neg (by omega : ¬ endB < startB),
      if_neg (by omega : ¬ (endB = 0 ∨ startB = 0))]
    rw [← hc, hnk]
  have htxne : txs ≠ [] := hb3.2.1
  have hY := brYields_loaded modsF idxVals startB endB entsOf cands hvals hwf hsort hwin
    cands' k₀ rest hb4 hb5 blk txs
    ({ start := startB, stop := endB, keys := cands,
       keyIndex := ((((-1 : Int) + 1).toNat : Nat) : Int),
       currentKeyItr := some (rest.map (fun e => constructLocalIndex e.1 e.2)),
       blockNum := blk, transactions := txs, txIndex := 0 })
    rfl rfl rfl (by norm_num) (by rw [hcc]; rfl) (by rw [hcc]; rfl)
    rfl rfl rfl rfl htxne hb1 hb6
  have hout : (cands.map (perKeyOut modsF startB endB entsOf)).flatten
      = txs.map (fun tx => modsF k₀ blk tx)
          ++ ((rest.filter
                (fun e => decide (startB ≤ e.1) && decide (e.1 ≤ endB))).map
                (fun e => e.2.map (fun tx => modsF k₀ e.1 tx))).flatten
          ++ (cands'.map (perKeyOut modsF startB endB entsOf)).flatten := by
    rw [hcc]
    simp [perKeyOut, hb7, List.append_assoc]
  refine ⟨_, hres, ?_⟩
  rw [hout]
  exact fun f hf => runSteps_of_yields _ hY f hf

instance (e : Nat × List Nat) : Decidable (brEntryOk e) :=
  inferInstanceAs (Decidable (_ ∧ _ ∧ _))

/-- Blocks of the spec's threshold example: key `"a"` written in blocks 1, 3
and 5, key `"b"` only in block 2. -/
def blocksW5 : Nat → List (List Bytes) := fun b =>
  if b = 2 then [[[98]]] else if b = 1 ∨ b = 3 ∨ b = 5 then [[[97]]] else []

/-- Decoded index entries matching `blocksW5`: transaction 0 of each block a
key is written in. -/
def entsOfW5 : Bytes → List (Nat × List Nat) := fun k =>
  if k = [97] then [(1, [0]), (3, [0]), (5, [0])]
  else if k = [98] then [(2, [0])] else []

/-- The per-key iterators storing `entsOfW5` as LocalIndex values. -/
def idxValsW5 : Bytes → List Bytes := fun k =>
  (entsOfW5 k).map (fun e => constructLocalIndex e.1 e.2)

/-- A resolution pipeline tagging each modification with its key and
block. -/
def modsFW5 : Bytes → Nat → Nat → KeyModification := fun k b _ =>
  ⟨k ++ [b], [], b, false⟩

/-- Witness for C5 on the spec's own threshold example: with threshold 2
over blocks 1..5 only key `"a"` qualifies, and the scan yields its three
modifications in ascending block order. -/
theorem getUpdatesByBlockRange_grouped_witness :
    ∃ s₀, getUpdatesByBlockRange idxValsW5 blocksW5 [[97], [98]] 1 5 2 = .ok s₀ ∧
      runSteps (blockRangeScanner.Next (fun k b t => some (modsFW5 k b t)) idxValsW5) 4 s₀
        = ([modsFW5 [97] 1 0, modsFW5 [97] 3 0, modsFW5 [97] 5 0], true) := by
  obtain ⟨s₀, h1, h2⟩ := getUpdatesByBlockRange_grouped idxValsW5 blocksW5 [[97], [98]]
    1 5 2 entsOfW5 modsFW5 [[97]]
    (by decide) (by decide) (by decide) (by decide)
    (by decide) (by decide) (by decide) (by decide)
  have h4 : (([[97]] : List Bytes).map (perKeyOut modsFW5 1 5 entsOfW5)).flatten
      = [modsFW5 [97] 1 0, modsFW5 [97] 3 0, modsFW5 [97] 5 0] := by decide
  have h3 := h2 4 (by rw [h4]; decide)
  rw [h4] at h3
  exact ⟨s₀, h1, h3⟩

end HlfIndex
